import Mathlib

/-!
Verification of the evolutionary portfolio optimizer (backend/ga.py,
backend/nsga2.py, backend/app/ga/genetic.py) against its natural-language
specification.  The Python sources are shallowly embedded: numpy arrays of
period returns and weights become lists of rationals (or reals where the
source applies transcendental functions), the seeded numpy generator becomes
an explicit tape of pre-drawn values threaded through the computation, and
functions that raise become functions into `Except`.
-/

namespace NSGA2

/-- Embedding of `dominates` (backend/nsga2.py, lines 17-30).
`ind1` dominates `ind2` iff `ret1 >= ret2 and risk1 <= risk2 and
(ret1 > ret2 or risk1 < risk2)`. -/
def dominates (a b : ℚ × ℚ) : Bool :=
  (decide (a.1 ≥ b.1) && decide (a.2 ≤ b.2)) && (decide (a.1 > b.1) || decide (a.2 < b.2))

/-- The list `S[i]` built in `fast_non_dominated_sort`
(backend/nsga2.py, lines 44-51): indices `j ≠ i` with
`dominates(population[i], population[j])`. -/
def domSucc (pop : List (ℚ × ℚ)) (i : ℕ) : List ℕ :=
  (List.range pop.length).filter fun j =>
    decide (j ≠ i) && dominates (pop.getD i (0, 0)) (pop.getD j (0, 0))

/-- The counter `n_p[i]` of `fast_non_dominated_sort`: how many `j ≠ i`
dominate `i`.  Kept as an integer because the Python code decrements it. -/
def npInit (pop : List (ℚ × ℚ)) (i : ℕ) : ℤ :=
  ((List.range pop.length).filter fun j =>
    decide (j ≠ i) && dominates (pop.getD j (0, 0)) (pop.getD i (0, 0))).length

/-- `front[0]` of `fast_non_dominated_sort` (lines 53-55): the indices whose
domination counter is zero. -/
def front0 (pop : List (ℚ × ℚ)) : List ℕ :=
  (List.range pop.length).filter fun i => decide (npInit pop i = 0)

/-- Inner loop of the front-peeling phase (lines 60-65): for each `q` in
`S[p]` decrement its counter and, when the counter reaches zero, append `q`
to the next front `Q`. -/
def peelOne (S : ℕ → List ℕ) (st : (ℕ → ℤ) × List ℕ) (p : ℕ) : (ℕ → ℤ) × List ℕ :=
  (S p).foldl
    (fun st q =>
      let np := Function.update st.1 q (st.1 q - 1)
      (np, if np q = 0 then st.2 ++ [q] else st.2))
    st

/-- One round of the peeling phase: process every `p` of the current front. -/
def peelFront (S : ℕ → List ℕ) (np : ℕ → ℤ) (F : List ℕ) : (ℕ → ℤ) × List ℕ :=
  F.foldl (peelOne S) (np, [])

/-- The `while front[i]` loop of `fast_non_dominated_sort` (lines 57-70),
with explicit fuel (the Python loop terminates because fronts are disjoint
and nonempty; `pop.length` rounds always suffice). -/
def fndsLoop (S : ℕ → List ℕ) : ℕ → (ℕ → ℤ) → List ℕ → List (List ℕ)
  | 0, _, _ => []
  | fuel + 1, np, F =>
    if F.isEmpty then []
    else
      let st := peelFront S np F
      if st.2.isEmpty then [] else st.2 :: fndsLoop S fuel st.1 st.2

/-- Embedding of `fast_non_dominated_sort` (backend/nsga2.py, lines 33-72):
returns the list of fronts, front 0 first. -/
def fast_non_dominated_sort (pop : List (ℚ × ℚ)) : List (List ℕ) :=
  front0 pop :: fndsLoop (domSucc pop) pop.length (npInit pop) (front0 pop)

/-- `population[i][obj_idx]` for the two objectives of the engine. -/
def objVal : ℕ → ℚ × ℚ → ℚ
  | 0, a => a.1
  | _ + 1, a => a.2

/-- `sorted(front, key=lambda i: population[i][obj_idx])` — Python `sorted`
is a stable ascending sort, realized here by insertion sort on the total
relation `≤` over the objective values. -/
def sortedFront (pop : List (ℚ × ℚ)) (front : List ℕ) (k : ℕ) : List ℕ :=
  List.insertionSort
    (fun i j => objVal k (pop.getD i (0, 0)) ≤ objVal k (pop.getD j (0, 0))) front

/-- One objective pass of `crowding_distance` (backend/nsga2.py, lines
86-107): sort the front by the objective, set positions `0` and `n-1` of the
distance list to `inf`, and for `j = 1 .. n-2` add to position `j` the
normalized gap between positions `j+1` and `j-1` of the SORTED front.  The
Python code indexes `distances` by raw front position in the `inf`
assignments and by sorted position in the accumulation, exactly as embedded
here. -/
def crowdingPass (pop : List (ℚ × ℚ)) (front : List ℕ) (k : ℕ)
    (d : List (WithTop ℚ)) : List (WithTop ℚ) :=
  let sf := sortedFront pop front k
  let d1 := (d.set 0 ⊤).set (front.length - 1) ⊤
  if 2 < sf.length then
    let omin := objVal k (pop.getD (sf.getD 0 0) (0, 0))
    let omax := objVal k (pop.getD (sf.getD (sf.length - 1) 0) (0, 0))
    let orange := omax - omin
    if 0 < orange then
      (List.range (sf.length - 2)).foldl
        (fun d j0 =>
          let j := j0 + 1
          d.set j (d.getD j 0 +
            (((objVal k (pop.getD (sf.getD (j + 1) 0) (0, 0)) -
               objVal k (pop.getD (sf.getD (j - 1) 0) (0, 0))) / orange : ℚ) : WithTop ℚ)))
        d1
    else d1
  else d1

/-- Embedding of `crowding_distance` (backend/nsga2.py, lines 75-109).
Distances live in `WithTop ℚ`, with `⊤` playing the role of `float(inf)`. -/
def crowding_distance (front : List ℕ) (pop : List (ℚ × ℚ)) : List (WithTop ℚ) :=
  if front.length = 0 then []
  else crowdingPass pop front 1 (crowdingPass pop front 0 (List.replicate front.length 0))

/-- The binary tournament of the NSGA-II reproduction phase
(backend/nsga2.py, lines 222-236): given the two sampled indices, the code
keeps the candidate at the SMALLER index of the new population. -/
def tournament_pick (popW : List (List ℚ)) (idx1 idx2 : ℕ) : List ℚ :=
  if idx1 < idx2 then popW.getD idx1 [] else popW.getD idx2 []

/-- Modelled from the spec (§4.4 Reproduction): the binary tournament is to
compare the two candidates by non-domination rank ascending, then crowding
distance descending (ties resolved to the first candidate). -/
def tournament_pick_spec (popW : List (List ℚ)) (rank : ℕ → ℕ)
    (crowd : ℕ → WithTop ℚ) (idx1 idx2 : ℕ) : List ℚ :=
  if rank idx1 < rank idx2 then popW.getD idx1 []
  else if rank idx2 < rank idx1 then popW.getD idx2 []
  else if crowd idx1 < crowd idx2 then popW.getD idx2 []
  else popW.getD idx1 []

end NSGA2

namespace GA

/-- Embedding of `np.percentile(returns, q)` with the default linear
interpolation: on the ascending sort `s` of the data, the value at rank
position `pos = q/100 * (n-1)` is `s[i] + (pos - i) * (s[i+1] - s[i])`
where `i = floor(pos)`. -/
def percentile (xs : List ℚ) (q : ℚ) : ℚ :=
  let s := List.insertionSort (· ≤ ·) xs
  let n := s.length
  let pos : ℚ := q / 100 * ((n : ℚ) - 1)
  let i : ℕ := ⌊pos⌋.toNat
  let g : ℚ := pos - (⌊pos⌋ : ℚ)
  s.getD i 0 + g * (s.getD (i + 1) 0 - s.getD i 0)

/-- Embedding of `compute_cvar_daily` (backend/ga.py, lines 46-56):
`var_limit` is the `(1-alpha)*100` percentile, the tail is every return at
or below it, an empty tail is replaced by the whole sample, and the result
is the negated mean of the tail. -/
def compute_cvar_daily (returns : List ℚ) (alpha : ℚ) : ℚ :=
  let var_limit := percentile returns ((1 - alpha) * 100)
  let tail0 := returns.filter fun r => r ≤ var_limit
  let tail := if tail0.length = 0 then returns else tail0;
  -(tail.sum / (tail.length : ℚ))

open Classical in
/-- Embedding of `compute_annual_return_geo` (backend/ga.py, lines 17-32):
if any period return is ≤ -1 the function falls back to arithmetic-mean
compounding `(1 + mean)^252 - 1`; otherwise it returns
`expm1(mean(log1p(returns)) * 252)`. -/
noncomputable def compute_annual_return_geo (returns : List ℝ) : ℝ :=
  if ∃ r ∈ returns, r ≤ -1 then
    (1 + returns.sum / (returns.length : ℝ)) ^ (252 : ℕ) - 1
  else
    Real.exp ((returns.map fun r => Real.log (1 + r)).sum / (returns.length : ℝ) * 252) - 1

/-- Embedding of `random_weights` (backend/ga.py, lines 141-145, identical
in backend/nsga2.py, lines 141-145): the raw generator draws are clipped at
0 and normalized by their sum; a non-positive sum yields uniform weights. -/
def random_weights (draws : List ℚ) : List ℚ :=
  let w := draws.map fun x => max x 0
  let s := w.sum
  if 0 < s then w.map fun x => x / s
  else List.replicate draws.length (1 / (draws.length : ℚ))

/-- The child construction of the reproduction loops (backend/ga.py, lines
200-205 and backend/nsga2.py, lines 239-244): arithmetic crossover
`alpha*p1 + (1-alpha)*p2` followed, with probability 0.2, by additive
Gaussian noise.  The drawn blend coefficient and noise vector are inputs. -/
def make_child (p1 p2 : List ℚ) (alpha : ℚ) (mutate : Bool) (noise : List ℚ) : List ℚ :=
  let c := List.zipWith (fun a b => alpha * a + (1 - alpha) * b) p1 p2
  if mutate then List.zipWith (· + ·) c noise else c

/-- The repair step applied to every child (backend/ga.py, lines 207-209 and
backend/nsga2.py, lines 246-248): clip negatives to 0; if the clipped sum is
0 return uniform weights, otherwise divide by the sum. -/
def repair_child (child : List ℚ) : List ℚ :=
  let c := child.map fun x => max x 0
  let s := c.sum
  if s = 0 then List.replicate child.length (1 / (child.length : ℚ))
  else c.map fun x => x / s

end GA

namespace Genetic

/-- Componentwise minimum over the objective rows, `objs.min(axis=0)`
(backend/app/ga/genetic.py, line 99). -/
def colMin : List (ℚ × ℚ × ℚ) → ℚ × ℚ × ℚ
  | [] => (0, 0, 0)
  | o :: rest =>
    rest.foldl (fun m x => (min m.1 x.1, min m.2.1 x.2.1, min m.2.2 x.2.2)) o

/-- Componentwise maximum over the objective rows, `objs.max(axis=0)`
(line 100). -/
def colMax : List (ℚ × ℚ × ℚ) → ℚ × ℚ × ℚ
  | [] => (0, 0, 0)
  | o :: rest =>
    rest.foldl (fun m x => (max m.1 x.1, max m.2.1 x.2.1, max m.2.2 x.2.2)) o

/-- `denom[denom == 0] = 1` (line 102). -/
def fixDenom (d : ℚ) : ℚ := if d = 0 then 1 else d

/-- The per-row sum of min-max normalized objectives (lines 103-104). -/
def normSum (mn mx o : ℚ × ℚ × ℚ) : ℚ :=
  (o.1 - mn.1) / fixDenom (mx.1 - mn.1) +
  (o.2.1 - mn.2.1) / fixDenom (mx.2.1 - mn.2.1) +
  (o.2.2 - mn.2.2) / fixDenom (mx.2.2 - mn.2.2)

/-- `np.argmin`: index of the first occurrence of the minimum. -/
def idxmin : List ℚ → ℕ
  | [] => 0
  | x :: xs =>
    if xs = [] then 0
    else if x ≤ xs.getD (idxmin xs) 0 then 0 else idxmin xs + 1

/-- Best-compromise selection of `run_ga` (backend/app/ga/genetic.py, lines
96-106): min-max normalize each objective column over the front
(substituting 1 for a zero range), sum per row, and take the argmin. -/
def best_compromise (objs : List (ℚ × ℚ × ℚ)) : ℕ :=
  idxmin (objs.map (normSum (colMin objs) (colMax objs)))

end Genetic

namespace Rng

/-- Model of `np.random.default_rng`: an infinite tape of pre-drawn values —
uniform floats in `[0,1)`, bounded integer draws, and normal deviates —
consumed at an explicit position.  A seed determines the whole tape; the
embedded optimizers draw every random value from the tape, mirroring the
source where every draw comes from the generator built out of the caller
seed. -/
structure Tape where
  floats : ℕ → ℚ
  ints : ℕ → ℕ → ℕ
  normals : ℕ → ℚ
  pos : ℕ

/-- `rng.random()`. -/
def Tape.rand (t : Tape) : ℚ × Tape :=
  (t.floats t.pos, { t with pos := t.pos + 1 })

/-- `rng.integers(0, n)`: a draw below `n` (reduced mod `max n 1` so the
model, like numpy, always yields an in-range index). -/
def Tape.randBelow (t : Tape) (n : ℕ) : ℕ × Tape :=
  (t.ints t.pos n % max n 1, { t with pos := t.pos + 1 })

/-- `rng.normal(0, sigma, size=n)`. -/
def Tape.randnList (t : Tape) (n : ℕ) : List ℚ × Tape :=
  ((List.range n).map fun i => t.normals (t.pos + i), { t with pos := t.pos + n })

/-- `rng.random(n)`. -/
def Tape.randList (t : Tape) (n : ℕ) : List ℚ × Tape :=
  ((List.range n).map fun i => t.floats (t.pos + i), { t with pos := t.pos + n })

end Rng

namespace GA

open Rng

/-- The exceptions `run_ga`/`run_nsga2` can raise: the validation failures
checked before any generation runs (backend/ga.py, lines 124-138;
backend/nsga2.py, lines 132-139), and the IndexError that escapes the GA
generation loop when the population is too small — `evaluated[0]`
(backend/ga.py, line 181) on an empty population, or the elite copy
`[evaluated[i][0].copy() for i in range(elite_size)]` (line 193) when
`elite_size = max(2, populacao // 10)` exceeds the population size. -/
inductive GaError
  | tickerMismatch
  | nanCovariance
  | indexError
deriving DecidableEq

/-- One entry of the `results` list returned by the optimizers. -/
structure ResultRow where
  retorno_esperado_pct : ℚ
  risco_cvar_pct : ℚ
  variancia_anual : ℚ
  pesos_pct : List ℚ
  tickers : List String
deriving DecidableEq

/-- One entry of the GA `history` list. -/
structure HistoryRow where
  generation : ℕ
  fitness : ℚ
  annual_return : ℚ
  annual_cvar : ℚ
  annual_variance : ℚ
deriving DecidableEq

/-- One individual of the initial population: `random_weights()` applied to
`n_assets` generator draws. -/
def drawWeights (nAssets : ℕ) (t : Tape) : List ℚ × Tape :=
  let d := t.randList nAssets
  (random_weights d.1, d.2)

/-- `[random_weights() for _ in range(populacao)]`. -/
def drawInitial : ℕ → ℕ → Tape → List (List ℚ) × Tape
  | 0, _, t => ([], t)
  | k + 1, n, t =>
    let d := drawWeights n t
    let rest := drawInitial k n d.2
    (d.1 :: rest.1, rest.2)

/-- Objective tuple of the single-objective engine:
`(fitness, annual_return, annual_cvar, annual_variance)`. -/
abbrev Obj := ℚ × ℚ × ℚ × ℚ

/-- One child of the GA reproduction loop (backend/ga.py, lines 196-211):
two parents sampled by index, arithmetic crossover with a fresh blend draw,
mutation with probability 0.2, then simplex repair. -/
def gaChild (evaluated : List (List ℚ × Obj)) (nAssets : ℕ) (t : Tape) : List ℚ × Tape :=
  let d1 := t.randBelow evaluated.length
  let pa := (evaluated.getD d1.1 ([], 0, 0, 0, 0)).1
  let d2 := d1.2.randBelow evaluated.length
  let pb := (evaluated.getD d2.1 ([], 0, 0, 0, 0)).1
  let d3 := d2.2.rand
  let d4 := d3.2.rand
  let mutate := decide (d4.1 < 1/5)
  let d5 := if mutate then d4.2.randnList nAssets else ([], d4.2)
  (repair_child (make_child pa pb d3.1 mutate d5.1), d5.2)

/-- The `while len(new_pop) < populacao` reproduction loop of `run_ga`,
with fuel (each iteration appends exactly one child, so `populacao` rounds
always suffice). -/
def gaReproduce (evaluated : List (List ℚ × Obj)) (populacao nAssets : ℕ) :
    ℕ → List (List ℚ) → Tape → List (List ℚ) × Tape
  | 0, acc, t => (acc, t)
  | fuel + 1, acc, t =>
    if acc.length < populacao then
      let c := gaChild evaluated nAssets t
      gaReproduce evaluated populacao nAssets fuel (acc ++ [c.1]) c.2
    else (acc, t)

/-- `evaluated.sort(key=lambda x: x[1], reverse=True)` — a stable descending
sort by fitness, realized by insertion sort. -/
def sortByFitness (evaluated : List (List ℚ × Obj)) : List (List ℚ × Obj) :=
  List.insertionSort (fun a b => b.2.1 ≤ a.2.1) evaluated

/-- One generation of `run_ga` (backend/ga.py, lines 179-213): sort by
fitness, read the best row (`evaluated[0]`, line 181 — raises IndexError on
an empty population), copy the elite (`evaluated[i]` for
`i in range(max(2, populacao // 10))`, line 193 — raises IndexError when
the elite count exceeds the population size), refill by reproduction,
re-evaluate.  Both IndexError paths surface as `GaError.indexError`. -/
def gaGeneration (eval : List ℚ → Obj) (populacao nAssets : ℕ)
    (st : List (List ℚ × Obj) × List HistoryRow × Tape) (gen : ℕ) :
    Except GaError (List (List ℚ × Obj) × List HistoryRow × Tape) :=
  let evaluated := sortByFitness st.1
  if evaluated.length = 0 then .error .indexError
  else
    let best := evaluated.headD ([], 0, 0, 0, 0)
    let hist := st.2.1 ++
      [⟨gen, best.2.1, best.2.2.1, best.2.2.2.1, best.2.2.2.2⟩]
    let elite_size := max 2 (populacao / 10)
    if elite_size ≤ evaluated.length then
      let newPop0 := (evaluated.take elite_size).map (·.1)
      let rep := gaReproduce evaluated populacao nAssets populacao newPop0 st.2.2
      .ok (rep.1.map fun w => (w, eval w), hist, rep.2)
    else .error .indexError

/-- Embedding of `run_ga` (backend/ga.py, lines 97-227).  The evaluation
closure (built in the source from the return matrix, covariance and CVaR
settings) is the parameter `eval`; the generator is the seed-derived tape.
Modelling notes mirroring numpy over real inputs: a return matrix is 2-D by
construction here; `np.cov` yields NaN entries exactly when there are fewer
than 2 rows (division by `n_days - 1` gives 0/0), which is the only way the
NaN-covariance check fires on NaN-free input; `n_days < 30` only prints a
warning (backend/ga.py, lines 130-132).  An IndexError raised inside the
generation loop propagates out of the run, modelled by threading `Except`
through the fold. -/
def run_ga (matrix : List (List ℚ)) (tickers : List String) (populacao geracoes : ℕ)
    (eval : List ℚ → Obj) (t : Tape) :
    Except GaError (List ResultRow × List HistoryRow) :=
  let nDays := matrix.length
  let nAssets := (matrix.headD []).length
  if nAssets ≠ tickers.length then .error .tickerMismatch
  else if nDays < 2 then .error .nanCovariance
  else
    let init := drawInitial populacao nAssets t
    let evaluated := init.1.map fun w => (w, eval w)
    let final := (List.range geracoes).foldl
      (fun acc gen => acc.bind fun s => gaGeneration eval populacao nAssets s gen)
      (Except.ok (evaluated, ([] : List HistoryRow), init.2))
    final.map fun fin =>
      let sortedFinal := sortByFitness fin.1
      let results := (sortedFinal.take 10).map fun wf =>
        (⟨wf.2.2.1 * 100, wf.2.2.2.1 * 100, wf.2.2.2.2, wf.1.map (· * 100), tickers⟩ :
          ResultRow)
      (results, fin.2.1)

end GA

namespace NSGA2

open Rng

/-- One entry of the NSGA-II `history` list. -/
structure NsgaHistoryRow where
  generation : ℕ
  annual_return : ℚ
  annual_cvar : ℚ
  fitness : ℚ
  front_size : ℕ
deriving DecidableEq

/-- The front-by-front environmental selection of `run_nsga2`
(backend/nsga2.py, lines 188-217): add whole fronts while they fit; when a
front would overflow, keep only the `remaining` members of largest crowding
distance (stable descending sort of front positions) and stop. -/
def nsga2Fill (popW : List (List ℚ)) (popObj : List (ℚ × ℚ)) (populacao : ℕ) :
    List (List ℕ) → List (List ℚ) × List (ℚ × ℚ) → List (List ℚ) × List (ℚ × ℚ)
  | [], acc => acc
  | F :: rest, acc =>
    if acc.1.length < populacao then
      if acc.1.length + F.length ≤ populacao then
        nsga2Fill popW popObj populacao rest
          (acc.1 ++ F.map fun i => popW.getD i [],
           acc.2 ++ F.map fun i => popObj.getD i (0, 0))
      else
        let remaining := populacao - acc.1.length
        let distances := crowding_distance F popObj
        let sortedIdx := List.insertionSort
          (fun i j => distances.getD j 0 ≤ distances.getD i 0) (List.range F.length)
        let chosen := (sortedIdx.take remaining).map fun i => F.getD i 0
        (acc.1 ++ chosen.map fun idx => popW.getD idx [],
         acc.2 ++ chosen.map fun idx => popObj.getD idx (0, 0))
    else acc

/-- The `while len(new_pop_weights) < populacao` reproduction loop of
`run_nsga2` (backend/nsga2.py, lines 220-251), with fuel. -/
def nsga2Reproduce (eval : List ℚ → ℚ × ℚ) (populacao nAssets : ℕ) :
    ℕ → List (List ℚ) × List (ℚ × ℚ) × Tape → List (List ℚ) × List (ℚ × ℚ) × Tape
  | 0, st => st
  | fuel + 1, st =>
    if st.1.length < populacao then
      let d1 := st.2.2.randBelow st.1.length
      let d2 := d1.2.randBelow st.1.length
      let parent1 := tournament_pick st.1 d1.1 d2.1
      let d3 := d2.2.randBelow st.1.length
      let d4 := d3.2.randBelow st.1.length
      let parent2 := tournament_pick st.1 d3.1 d4.1
      let d5 := d4.2.rand
      let d6 := d5.2.rand
      let mutate := decide (d6.1 < 1/5)
      let d7 := if mutate then d6.2.randnList nAssets else ([], d6.2)
      let child := GA.repair_child (GA.make_child parent1 parent2 d5.1 mutate d7.1)
      nsga2Reproduce eval populacao nAssets fuel
        (st.1 ++ [child], st.2.1 ++ [eval child], d7.2)
    else st

/-- One generation of `run_nsga2` (backend/nsga2.py, lines 172-254):
non-dominated sorting, history row for the first member of the first front,
environmental selection, then the reproduction loop. -/
def nsga2Generation (eval : List ℚ → ℚ × ℚ) (populacao nAssets : ℕ)
    (st : List (List ℚ) × List (ℚ × ℚ) × List NsgaHistoryRow × Tape) (gen : ℕ) :
    List (List ℚ) × List (ℚ × ℚ) × List NsgaHistoryRow × Tape :=
  let popW := st.1
  let popObj := st.2.1
  let fronts := fast_non_dominated_sort popObj
  let hist :=
    if fronts ≠ [] ∧ fronts.headD [] ≠ [] then
      let bo := popObj.getD ((fronts.headD []).headD 0) (0, 0)
      st.2.2.1 ++ [⟨gen, bo.1, bo.2, bo.1 - bo.2, (fronts.headD []).length⟩]
    else st.2.2.1
  let filled := nsga2Fill popW popObj populacao fronts ([], [])
  let rep := nsga2Reproduce eval populacao nAssets populacao
    (filled.1, filled.2, st.2.2.2)
  (rep.1, rep.2.1, hist, rep.2.2)

/-- Embedding of `run_nsga2` (backend/nsga2.py, lines 112-277).  As for
`run_ga`, the evaluation closure is the parameter `eval`, the portfolio
variance closure (used only in result rows) is `pvar`, and the seeded
generator is the tape; validation mirrors lines 132-139. -/
def run_nsga2 (matrix : List (List ℚ)) (tickers : List String) (populacao geracoes : ℕ)
    (eval : List ℚ → ℚ × ℚ) (pvar : List ℚ → ℚ) (t : Tape) :
    Except GA.GaError (List GA.ResultRow × List NsgaHistoryRow) :=
  let nDays := matrix.length
  let nAssets := (matrix.headD []).length
  if nAssets ≠ tickers.length then .error .tickerMismatch
  else if nDays < 2 then .error .nanCovariance
  else
    let init := GA.drawInitial populacao nAssets t
    let popObj := init.1.map eval
    let final := (List.range geracoes).foldl (nsga2Generation eval populacao nAssets)
      (init.1, popObj, [], init.2)
    let pareto := (fast_non_dominated_sort final.2.1).headD []
    let results := (pareto.take 20).map fun idx =>
      (⟨(final.2.1.getD idx (0, 0)).1 * 100, (final.2.1.getD idx (0, 0)).2 * 100,
        pvar (final.1.getD idx []), (final.1.getD idx []).map (· * 100), tickers⟩ :
        GA.ResultRow)
    let sortedResults := List.insertionSort
      (fun a b => b.retorno_esperado_pct ≤ a.retorno_esperado_pct) results
    .ok (sortedResults, final.2.2.1)

/-- Number of elements `p` of `F` whose successor list contains `q`: how
many times the peeling round over `F` decrements the counter of `q`. -/
def cntIn (S : ℕ → List ℕ) (F : List ℕ) (q : ℕ) : ℕ :=
  F.countP fun p => decide (q ∈ S p)

/-- Indices of `range n` not yet assigned to a front: neither in the list
`A` of members of completed fronts nor in the current front `F`. -/
def unassigned (n : ℕ) (A F : List ℕ) : List ℕ :=
  (List.range n).filter fun q => decide (q ∉ A) && decide (q ∉ F)

/-- Invariant of the peeling loop: `A` holds the members of the completed
fronts, `F` the current front; every counter equals the number of not yet
processed dominators, every dominator of an assigned index is in `A`, and
every unassigned index still has a positive counter. -/
structure PeelInv (S : ℕ → List ℕ) (n : ℕ) (A F : List ℕ) (np : ℕ → ℤ) : Prop where
  nodup : (A ++ F).Nodup
  inRange : ∀ x ∈ A ++ F, x < n
  assignedClosed : ∀ q ∈ A ++ F, ∀ p, q ∈ S p → p < n → p ∈ A
  nonneg : ∀ q, 0 ≤ np q
  counts : ∀ q, q < n → q ∉ A → q ∉ F →
    np q = cntIn S F q + cntIn S (unassigned n A F) q ∧ 1 ≤ np q

end NSGA2

namespace NSGA2

open Rng

theorem dominates_irrefl (a : ℚ × ℚ) : dominates a a = false := by
  simp [dominates]

theorem dominates_trans {a b c : ℚ × ℚ}
    (hab : dominates a b = true) (hbc : dominates b c = true) :
    dominates a c = true := by
  simp only [dominates, Bool.and_eq_true, Bool.or_eq_true, decide_eq_true_eq] at *
  obtain ⟨⟨hr1, hk1⟩, hs1⟩ := hab
  obtain ⟨⟨hr2, hk2⟩, hs2⟩ := hbc
  refine ⟨⟨le_trans hr2 hr1, le_trans hk1 hk2⟩, ?_⟩
  rcases hs1 with h | h
  · exact Or.inl (lt_of_le_of_lt hr2 h)
  · exact Or.inr (lt_of_lt_of_le h hk2)

theorem dominates_asymm {a b : ℚ × ℚ}
    (hab : dominates a b = true) (hba : dominates b a = true) : False := by
  have := dominates_trans hab hba
  rw [dominates_irrefl] at this
  exact Bool.false_ne_true this

theorem mem_domSucc {pop : List (ℚ × ℚ)} {p q : ℕ} :
    q ∈ domSucc pop p ↔
      q < pop.length ∧ q ≠ p ∧ dominates (pop.getD p (0, 0)) (pop.getD q (0, 0)) = true := by
  simp [domSucc, List.mem_filter, List.mem_range, and_assoc]

theorem npInit_nonneg (pop : List (ℚ × ℚ)) (i : ℕ) : 0 ≤ npInit pop i := by
  exact Int.ofNat_nonneg _

theorem npInit_eq_zero_iff {pop : List (ℚ × ℚ)} {i : ℕ} :
    npInit pop i = 0 ↔
      ∀ j < pop.length, j ≠ i → dominates (pop.getD j (0, 0)) (pop.getD i (0, 0)) = false := by
  constructor
  · intro h j hj hne
    by_contra hdom
    have hmem : j ∈ (List.range pop.length).filter fun j =>
        decide (j ≠ i) && dominates (pop.getD j (0, 0)) (pop.getD i (0, 0)) := by
      simp only [List.mem_filter, List.mem_range, Bool.and_eq_true, decide_eq_true_eq]
      exact ⟨hj, hne, by simpa [Bool.not_eq_false] using hdom⟩
    have : 0 < npInit pop i := by
      unfold npInit
      exact_mod_cast List.length_pos.mpr (List.ne_nil_of_mem hmem)
    omega
  · intro h
    unfold npInit
    have : ((List.range pop.length).filter fun j =>
        decide (j ≠ i) && dominates (pop.getD j (0, 0)) (pop.getD i (0, 0))) = [] := by
      rw [List.filter_eq_nil_iff]
      intro j hj
      simp only [List.mem_range] at hj
      simp only [Bool.and_eq_true, decide_eq_true_eq, not_and]
      intro hne
      simpa [List.getD] using h j hj hne
    rw [this]
    rfl

theorem mem_front0 {pop : List (ℚ × ℚ)} {i : ℕ} :
    i ∈ front0 pop ↔ i < pop.length ∧ npInit pop i = 0 := by
  simp [front0, List.mem_filter, List.mem_range]

/-- C3: the dominance relation is irreflexive and asymmetric, and no index
placed in front 0 by `fast_non_dominated_sort` is dominated by any other
member of the population. -/
theorem dominance_and_front0_sound (a b : ℚ × ℚ) (pop : List (ℚ × ℚ)) (i j : ℕ)
    (hi : i ∈ (fast_non_dominated_sort pop).headD []) (hj : j < pop.length) :
    dominates a a = false ∧
    ¬(dominates a b = true ∧ dominates b a = true) ∧
    dominates (pop.getD j (0, 0)) (pop.getD i (0, 0)) = false := by
  refine ⟨dominates_irrefl a, fun ⟨h1, h2⟩ => dominates_asymm h1 h2, ?_⟩
  have hi0 : i ∈ front0 pop := by
    simpa [fast_non_dominated_sort] using hi
  obtain ⟨hilt, hnp⟩ := mem_front0.mp hi0
  rcases eq_or_ne j i with rfl | hne
  · exact dominates_irrefl _
  · exact npInit_eq_zero_iff.mp hnp j hj hne

/-- Witness for C3 at a concrete population: in `[(1,1),(2,0)]` index 1
dominates index 0, so front 0 is `[1]` and index 1 is undominated. -/
theorem dominance_and_front0_sound_witness :
    dominates ((2 : ℚ), (0 : ℚ)) ((1 : ℚ), (1 : ℚ)) = true ∧
    dominates ((1 : ℚ), (1 : ℚ)) ((2 : ℚ), (0 : ℚ)) = false :=
  ⟨by decide,
    (dominance_and_front0_sound ((1 : ℚ), (1 : ℚ)) ((2 : ℚ), (0 : ℚ))
        [((1 : ℚ), (1 : ℚ)), ((2 : ℚ), (0 : ℚ))] 1 0
        (by decide) (by decide)).2.2⟩

/-- C1 (code bug): on the front `[0,1,2]` over the population
`[(2,2),(1,1),(3,3)]`, individual `1` is the extreme (minimal) individual in
both objectives, yet `crowding_distance` gives it the finite value `2`; the
interior individual `0` receives `+∞` instead.  The code assigns `inf` to
positions 0 and n-1 of the front in its ORIGINAL order and keys the interior
accumulation by sorted position, so extremes get `+∞` only when the front
happens to be listed in objective-sorted order. -/
theorem crowding_distance_misindexes_extremes :
    crowding_distance [0, 1, 2] [(2, 2), (1, 1), (3, 3)] = [⊤, ((2 : ℚ) : WithTop ℚ), ⊤] ∧
    (∀ i ∈ [0, 1, 2], ∀ k ∈ [0, 1],
      objVal k (([((2 : ℚ), (2 : ℚ)), (1, 1), (3, 3)]).getD 1 (0, 0)) ≤
        objVal k (([((2 : ℚ), (2 : ℚ)), (1, 1), (3, 3)]).getD i (0, 0))) ∧
    (crowding_distance [0, 1, 2] [(2, 2), (1, 1), (3, 3)]).getD 1 0 ≠ ⊤ := by
  have h0 : sortedFront [((2 : ℚ), (2 : ℚ)), (1, 1), (3, 3)] [0, 1, 2] 0 = [1, 0, 2] := by
    decide
  have h1 : sortedFront [((2 : ℚ), (2 : ℚ)), (1, 1), (3, 3)] [0, 1, 2] 1 = [1, 0, 2] := by
    decide
  have hval : crowding_distance [0, 1, 2] [(2, 2), (1, 1), (3, 3)] =
      [⊤, ((2 : ℚ) : WithTop ℚ), ⊤] := by
    simp only [crowding_distance, crowdingPass, h0, h1]
    norm_num [objVal, List.getD, List.range_succ, ← WithTop.coe_add]
    decide
  refine ⟨hval, by decide, ?_⟩
  rw [hval]
  decide

/-- C7 (code bug): with candidates at positions 1 and 2 of equal rank where
position 2 has the larger crowding distance, the rank/crowding tournament of
the spec picks position 2, but the code picks position 1 because it only
compares the sampled indices numerically. -/
theorem tournament_ignores_rank_and_crowding :
    tournament_pick [[1, 0], [0, 1], [3, 7]] 1 2 = [0, 1] ∧
    tournament_pick_spec [[1, 0], [0, 1], [3, 7]]
      (fun _ => 0) (fun i => if i = 2 then ((5 : ℚ) : WithTop ℚ) else ((1 : ℚ) : WithTop ℚ))
      1 2 = [3, 7] ∧
    (fun i => if i = 2 then ((5 : ℚ) : WithTop ℚ) else ((1 : ℚ) : WithTop ℚ)) 1 <
      (fun i => if i = 2 then ((5 : ℚ) : WithTop ℚ) else ((1 : ℚ) : WithTop ℚ)) 2 ∧
    ([0, 1] : List ℚ) ≠ [3, 7] := by
  refine ⟨by decide, by decide, by decide, by decide⟩

end NSGA2

namespace GA

open Rng

theorem sorted_getD_le {s : List ℚ} (hs : List.Sorted (· ≤ ·) s) {i j : ℕ}
    (hij : i ≤ j) (hj : j < s.length) : s.getD i 0 ≤ s.getD j 0 := by
  rcases eq_or_lt_of_le hij with rfl | hlt
  · exact le_refl _
  · rw [List.getD_eq_getElem s 0 (lt_trans hlt hj), List.getD_eq_getElem s 0 hj]
    exact List.Sorted.rel_get_of_lt hs (by simpa using hlt)

/-- The interpolated percentile of a nonempty sample is at least its
minimum, hence the tail below the VaR threshold is never empty. -/
theorem min_le_percentile (xs : List ℚ) (q : ℚ) (hne : xs ≠ [])
    (h0 : 0 ≤ q) (h1 : q ≤ 100) :
    (List.insertionSort (· ≤ ·) xs).getD 0 0 ≤ percentile xs q := by
  set s := List.insertionSort (· ≤ ·) xs with hsdef
  have hs : List.Sorted (· ≤ ·) s := List.sorted_insertionSort _ xs
  have hlen : s.length = xs.length := List.length_insertionSort _ xs
  have hpos : 0 < s.length := by
    rw [hlen]
    exact List.length_pos.mpr hne
  unfold percentile
  rw [← hsdef]
  set n := s.length with hn
  set pos : ℚ := q / 100 * ((n : ℚ) - 1) with hposdef
  have hpos0 : 0 ≤ pos := by
    apply mul_nonneg (by positivity)
    have : (1 : ℚ) ≤ (n : ℚ) := by exact_mod_cast hpos
    linarith
  have hposle : pos ≤ (n : ℚ) - 1 := by
    have h2 : q / 100 ≤ 1 := by linarith [div_le_one_of_le₀ h1 (by norm_num : (0:ℚ) ≤ 100)]
    have : (1 : ℚ) ≤ (n : ℚ) := by exact_mod_cast hpos
    nlinarith
  have hfl0 : 0 ≤ ⌊pos⌋ := by
    rw [Int.le_floor]
    exact_mod_cast hpos0
  have hfloorle : ((⌊pos⌋ : ℤ) : ℚ) ≤ pos := Int.floor_le pos
  have hg0 : 0 ≤ pos - ((⌊pos⌋ : ℤ) : ℚ) := by linarith
  set i : ℕ := (⌊pos⌋ : ℤ).toNat with hidef
  have hicast : (i : ℚ) = ((⌊pos⌋ : ℤ) : ℚ) := by
    rw [hidef]
    exact_mod_cast congrArg Int.cast (Int.toNat_of_nonneg hfl0)
  have hin : i < n := by
    have : (i : ℚ) ≤ (n : ℚ) - 1 := by rw [hicast]; linarith
    have : (i : ℚ) < (n : ℚ) := by linarith
    exact_mod_cast this
  rcases lt_or_ge (i + 1) n with hi1 | hi1
  · have hmono : s.getD i 0 ≤ s.getD (i + 1) 0 :=
      sorted_getD_le hs (Nat.le_succ i) hi1
    have h00 : s.getD 0 0 ≤ s.getD i 0 := sorted_getD_le hs (Nat.zero_le i) hin
    nlinarith
  · have hieq : (i : ℚ) = (n : ℚ) - 1 := by
      have hile : (i : ℚ) ≤ (n : ℚ) - 1 := by rw [hicast]; linarith
      have : (n : ℚ) - 1 ≤ (i : ℚ) := by
        have : n ≤ i + 1 := hi1
        have : (n : ℚ) ≤ (i : ℚ) + 1 := by exact_mod_cast this
        linarith
      linarith
    have hgz : pos - ((⌊pos⌋ : ℤ) : ℚ) = 0 := by
      have hple : pos ≤ ((⌊pos⌋ : ℤ) : ℚ) := by
        rw [← hicast, hieq]
        exact hposle
      linarith
    show s.getD 0 0 ≤
      s.getD i 0 + (pos - ((⌊pos⌋ : ℤ) : ℚ)) * (s.getD (i + 1) 0 - s.getD i 0)
    rw [hgz]
    have h00 : s.getD 0 0 ≤ s.getD i 0 := sorted_getD_le hs (Nat.zero_le i) hin
    linarith

/-- C5: for a nonempty return vector and `alpha ∈ (0,1)`,
`compute_cvar_daily` returns the negated mean of the returns at or below the
`(1-alpha)`-quantile threshold; that tail is never empty (the threshold is
at least the sample minimum), so the empty-tail fallback — vacuously — may
be credited with any value, in particular the VaR itself. -/
theorem compute_cvar_daily_spec (returns : List ℚ) (alpha : ℚ)
    (hne : returns ≠ []) (ha0 : 0 < alpha) (ha1 : alpha < 1) :
    compute_cvar_daily returns alpha =
      -((returns.filter fun r =>
          r ≤ percentile returns ((1 - alpha) * 100)).sum /
        ((returns.filter fun r =>
          r ≤ percentile returns ((1 - alpha) * 100)).length : ℚ)) ∧
    (returns.filter fun r => r ≤ percentile returns ((1 - alpha) * 100)) ≠ [] ∧
    ((returns.filter fun r => r ≤ percentile returns ((1 - alpha) * 100)) = [] →
      compute_cvar_daily returns alpha = -(percentile returns ((1 - alpha) * 100))) := by
  have hq0 : (0 : ℚ) ≤ (1 - alpha) * 100 := by nlinarith
  have hq1 : (1 - alpha) * 100 ≤ 100 := by nlinarith
  have hmin := min_le_percentile returns ((1 - alpha) * 100) hne hq0 hq1
  have hmem : (List.insertionSort (· ≤ ·) returns).getD 0 0 ∈ returns := by
    have hlen : 0 < (List.insertionSort (· ≤ ·) returns).length := by
      rw [List.length_insertionSort]
      exact List.length_pos.mpr hne
    have : (List.insertionSort (· ≤ ·) returns).getD 0 0 ∈
        List.insertionSort (· ≤ ·) returns := by
      rw [List.getD_eq_getElem _ 0 hlen]
      exact List.getElem_mem hlen
    exact (List.perm_insertionSort (· ≤ ·) returns).mem_iff.mp this
  have htail : (returns.filter fun r =>
      r ≤ percentile returns ((1 - alpha) * 100)) ≠ [] := by
    apply List.ne_nil_of_mem (a := (List.insertionSort (· ≤ ·) returns).getD 0 0)
    rw [List.mem_filter]
    exact ⟨hmem, by simpa using hmin⟩
  refine ⟨?_, htail, fun h => absurd h htail⟩
  unfold compute_cvar_daily
  simp only []
  rw [if_neg (by simpa [List.length_eq_zero] using htail)]

/-- Witness for C5 at `returns = [-3, 1, 2, 5]`, `alpha = 3/4`. -/
theorem compute_cvar_daily_spec_witness :
    ([(-3 : ℚ), 1, 2, 5] ≠ []) ∧
    ((-3 : ℚ), 1, 2, 5).1 = -3 ∧
    (compute_cvar_daily [(-3 : ℚ), 1, 2, 5] (3/4) =
      -(([(-3 : ℚ), 1, 2, 5].filter fun r =>
          r ≤ percentile [(-3 : ℚ), 1, 2, 5] ((1 - 3/4) * 100)).sum /
        (([(-3 : ℚ), 1, 2, 5].filter fun r =>
          r ≤ percentile [(-3 : ℚ), 1, 2, 5] ((1 - 3/4) * 100)).length : ℚ)) ∧
      ([(-3 : ℚ), 1, 2, 5].filter fun r =>
          r ≤ percentile [(-3 : ℚ), 1, 2, 5] ((1 - 3/4) * 100)) ≠ [] ∧
      (([(-3 : ℚ), 1, 2, 5].filter fun r =>
          r ≤ percentile [(-3 : ℚ), 1, 2, 5] ((1 - 3/4) * 100)) = [] →
        compute_cvar_daily [(-3 : ℚ), 1, 2, 5] (3/4) =
          -(percentile [(-3 : ℚ), 1, 2, 5] ((1 - 3/4) * 100)))) :=
  ⟨by decide, rfl,
    compute_cvar_daily_spec [(-3 : ℚ), 1, 2, 5] (3/4) (by decide)
      (by norm_num) (by norm_num)⟩

/-- C6: `compute_annual_return_geo` returns
`expm1(mean(log1p(returns)) * 252)` whenever every entry exceeds -1, falls
back to `(1 + mean)^252 - 1` (without raising) when some entry is ≤ -1, and
on a constant vector `[r, ..., r]` with `r > -1` its value equals
`(1+r)^252 - 1` (exactly, hence within 1e-6). -/
theorem compute_annual_return_geo_spec (returns : List ℝ) (r : ℝ) (k : ℕ)
    (hk : 0 < k) (hr : -1 < r) :
    ((∀ x ∈ returns, -1 < x) →
      compute_annual_return_geo returns =
        Real.exp ((returns.map fun x => Real.log (1 + x)).sum /
          (returns.length : ℝ) * 252) - 1) ∧
    ((∃ x ∈ returns, x ≤ -1) →
      compute_annual_return_geo returns =
        (1 + returns.sum / (returns.length : ℝ)) ^ (252 : ℕ) - 1) ∧
    |compute_annual_return_geo (List.replicate k r) - ((1 + r) ^ (252 : ℕ) - 1)| ≤
      1 / 1000000 := by
  refine ⟨?_, ?_, ?_⟩
  · intro hall
    unfold compute_annual_return_geo
    rw [if_neg]
    push_neg
    intro x hx
    exact hall x hx
  · intro hex
    unfold compute_annual_return_geo
    rw [if_pos hex]
  · have hnobad : ¬∃ x ∈ List.replicate k r, x ≤ -1 := by
      push_neg
      intro x hx
      rw [List.eq_of_mem_replicate hx]
      exact hr
    unfold compute_annual_return_geo
    rw [if_neg hnobad]
    have hmap : (List.replicate k r).map (fun x => Real.log (1 + x)) =
        List.replicate k (Real.log (1 + r)) := List.map_replicate ..
    rw [hmap, List.sum_replicate, List.length_replicate]
    have hk0 : (k : ℝ) ≠ 0 := by exact_mod_cast hk.ne.symm
    have hsmul : (k • Real.log (1 + r)) / (k : ℝ) = Real.log (1 + r) := by
      rw [nsmul_eq_mul]
      field_simp
    rw [hsmul]
    have hexp : Real.exp (Real.log (1 + r) * 252) = (1 + r) ^ (252 : ℕ) := by
      rw [mul_comm]
      rw [show (252 : ℝ) = ((252 : ℕ) : ℝ) by norm_num]
      rw [Real.exp_nat_mul, Real.exp_log (by linarith)]
    rw [hexp]
    simp

/-- Witness for C6 at `returns = [0]`, `r = 0`, `k = 1`. -/
theorem compute_annual_return_geo_spec_witness :
    ((0 : ℕ) < 1) ∧ (-1 : ℝ) < 0 ∧
    (((∀ x ∈ ([0] : List ℝ), -1 < x) →
      compute_annual_return_geo [0] =
        Real.exp ((([0] : List ℝ).map fun x => Real.log (1 + x)).sum /
          (([0] : List ℝ).length : ℝ) * 252) - 1) ∧
    ((∃ x ∈ ([0] : List ℝ), x ≤ -1) →
      compute_annual_return_geo [0] =
        (1 + ([0] : List ℝ).sum / (([0] : List ℝ).length : ℝ)) ^ (252 : ℕ) - 1) ∧
    |compute_annual_return_geo (List.replicate 1 (0 : ℝ)) -
      ((1 + (0 : ℝ)) ^ (252 : ℕ) - 1)| ≤ 1 / 1000000) :=
  ⟨Nat.zero_lt_one, by norm_num,
    compute_annual_return_geo_spec [0] 0 1 Nat.zero_lt_one (by norm_num)⟩

theorem sum_map_div (l : List ℚ) (s : ℚ) : (l.map fun x => x / s).sum = l.sum / s := by
  induction l with
  | nil => simp
  | cons x xs ih => simp [ih, add_div]

theorem sum_replicate_inv (n : ℕ) (hn : n ≠ 0) :
    (List.replicate n (1 / (n : ℚ))).sum = 1 := by
  rw [List.sum_replicate, nsmul_eq_mul]
  field_simp

/-- C4: initial random weights and every repaired child are simplex vectors:
all entries are ≥ 0 and the entries sum to exactly 1 (hence to 1 within the
1e-9 tolerance); a child whose post-clip sum is 0 is replaced by the uniform
vector `1/nAssets`. -/
theorem weight_vectors_lie_on_simplex (draws p1 p2 noise : List ℚ) (alpha : ℚ)
    (mutate : Bool) (hd : draws ≠ []) (hc : make_child p1 p2 alpha mutate noise ≠ []) :
    (∀ x ∈ random_weights draws, 0 ≤ x) ∧
    (random_weights draws).sum = 1 ∧
    |(random_weights draws).sum - 1| ≤ 1 / 1000000000 ∧
    (∀ x ∈ repair_child (make_child p1 p2 alpha mutate noise), 0 ≤ x) ∧
    (repair_child (make_child p1 p2 alpha mutate noise)).sum = 1 ∧
    |(repair_child (make_child p1 p2 alpha mutate noise)).sum - 1| ≤ 1 / 1000000000 ∧
    (((make_child p1 p2 alpha mutate noise).map fun x => max x 0).sum = 0 →
      repair_child (make_child p1 p2 alpha mutate noise) =
        List.replicate (make_child p1 p2 alpha mutate noise).length
          (1 / ((make_child p1 p2 alpha mutate noise).length : ℚ))) := by
  have hrw_nonneg : ∀ x ∈ random_weights draws, 0 ≤ x := by
    unfold random_weights
    by_cases hpos : 0 < (draws.map fun x => max x 0).sum
    · rw [if_pos hpos]
      intro x hx
      obtain ⟨y, hy, rfl⟩ := List.mem_map.mp hx
      obtain ⟨z, _, rfl⟩ := List.mem_map.mp hy
      exact div_nonneg (le_max_right z 0) (le_of_lt hpos)
    · rw [if_neg hpos]
      intro x hx
      rw [List.eq_of_mem_replicate hx]
      positivity
  have hrw_sum : (random_weights draws).sum = 1 := by
    unfold random_weights
    by_cases hpos : 0 < (draws.map fun x => max x 0).sum
    · rw [if_pos hpos, sum_map_div, div_self (ne_of_gt hpos)]
    · rw [if_neg hpos]
      exact sum_replicate_inv draws.length
        (by simpa [List.length_eq_zero] using hd)
  set child := make_child p1 p2 alpha mutate noise with hchild
  have hclip_nonneg : ∀ x ∈ child.map fun x => max x 0, 0 ≤ x := by
    intro x hx
    obtain ⟨z, _, rfl⟩ := List.mem_map.mp hx
    exact le_max_right z 0
  have hclipsum : 0 ≤ (child.map fun x => max x 0).sum :=
    List.sum_nonneg hclip_nonneg
  have hrc_nonneg : ∀ x ∈ repair_child child, 0 ≤ x := by
    unfold repair_child
    by_cases hz : (child.map fun x => max x 0).sum = 0
    · rw [if_pos hz]
      intro x hx
      rw [List.eq_of_mem_replicate hx]
      positivity
    · rw [if_neg hz]
      intro x hx
      obtain ⟨y, hy, rfl⟩ := List.mem_map.mp hx
      exact div_nonneg (hclip_nonneg y hy) hclipsum
  have hrc_sum : (repair_child child).sum = 1 := by
    unfold repair_child
    by_cases hz : (child.map fun x => max x 0).sum = 0
    · rw [if_pos hz]
      exact sum_replicate_inv child.length
        (by simpa [List.length_eq_zero] using hc)
    · rw [if_neg hz, sum_map_div, div_self hz]
  have hrc_uniform : ((child.map fun x => max x 0).sum = 0 →
      repair_child child =
        List.replicate child.length (1 / (child.length : ℚ))) := by
    intro hz
    unfold repair_child
    rw [if_pos hz]
  refine ⟨hrw_nonneg, hrw_sum, by rw [hrw_sum]; norm_num, hrc_nonneg, hrc_sum,
    by rw [hrc_sum]; norm_num, hrc_uniform⟩

/-- Witness for C4 at `draws = [1, 3]` and the child of parents `[1, 0]`,
`[0, 1]` with blend 0, no mutation. -/
theorem weight_vectors_lie_on_simplex_witness :
    (([(1 : ℚ), 3] : List ℚ) ≠ []) ∧ make_child [(1 : ℚ), 0] [0, 1] 0 false [] ≠ [] ∧
    (random_weights [(1 : ℚ), 3]).sum = 1 ∧
    (repair_child (make_child [(1 : ℚ), 0] [0, 1] 0 false [])).sum = 1 :=
  ⟨by decide, by decide,
    (weight_vectors_lie_on_simplex [(1 : ℚ), 3] [1, 0] [0, 1] [] 0 false
      (by decide) (by decide)).2.1,
    (weight_vectors_lie_on_simplex [(1 : ℚ), 3] [1, 0] [0, 1] [] 0 false
      (by decide) (by decide)).2.2.2.2.1⟩

end GA

namespace Genetic

open Rng

theorem idxmin_spec (l : List ℚ) (hl : l ≠ []) :
    idxmin l < l.length ∧ ∀ j < l.length, l.getD (idxmin l) 0 ≤ l.getD j 0 := by
  induction l with
  | nil => exact absurd rfl hl
  | cons x xs ih =>
    by_cases hxs : xs = []
    · subst hxs
      refine ⟨by simp [idxmin], ?_⟩
      intro j hj
      have hj0 : j = 0 := by
        simp only [List.length_cons, List.length_nil] at hj
        omega
      subst hj0
      simp [idxmin]
    · obtain ⟨hlt, hmin⟩ := ih hxs
      by_cases hle : x ≤ xs.getD (idxmin xs) 0
      · have hidx : idxmin (x :: xs) = 0 := by
          conv_lhs => rw [idxmin]
          rw [if_neg hxs, if_pos hle]
        refine ⟨by simp [hidx], ?_⟩
        intro j hj
        rw [hidx]
        match j with
        | 0 => exact le_refl _
        | j + 1 =>
          show x ≤ xs.getD j 0
          exact le_trans hle (hmin j (by simpa using hj))
      · have hidx : idxmin (x :: xs) = idxmin xs + 1 := by
          conv_lhs => rw [idxmin]
          rw [if_neg hxs, if_neg hle]
        push_neg at hle
        refine ⟨by simpa [hidx] using hlt, ?_⟩
        intro j hj
        rw [hidx]
        show xs.getD (idxmin xs) 0 ≤ (x :: xs).getD j 0
        match j with
        | 0 => exact le_of_lt hle
        | j + 1 => exact hmin j (by simpa using hj)

/-- C10: for a nonempty front, `best_compromise` returns an in-range index
whose min-max-normalized objective sum (zero ranges replaced by denominator
1) is minimal over the whole front. -/
theorem best_compromise_attains_min_normSum (objs : List (ℚ × ℚ × ℚ)) (hne : objs ≠ []) :
    best_compromise objs < objs.length ∧
    ∀ j < objs.length,
      normSum (colMin objs) (colMax objs) (objs.getD (best_compromise objs) (0, 0, 0)) ≤
        normSum (colMin objs) (colMax objs) (objs.getD j (0, 0, 0)) := by
  unfold best_compromise
  have hmne : objs.map (normSum (colMin objs) (colMax objs)) ≠ [] := by
    simpa [List.map_eq_nil_iff] using hne
  obtain ⟨hlt0, hmin⟩ := idxmin_spec _ hmne
  have hlt : idxmin (objs.map (normSum (colMin objs) (colMax objs))) < objs.length := by
    simpa using hlt0
  refine ⟨hlt, ?_⟩
  intro j hj
  have hjm : j < (objs.map (normSum (colMin objs) (colMax objs))).length := by
    simpa using hj
  have h1 : (objs.map (normSum (colMin objs) (colMax objs))).getD
      (idxmin (objs.map (normSum (colMin objs) (colMax objs)))) 0 =
      normSum (colMin objs) (colMax objs)
        (objs.getD (idxmin (objs.map (normSum (colMin objs) (colMax objs)))) (0, 0, 0)) := by
    rw [List.getD_eq_getElem _ _ hlt0, List.getD_eq_getElem _ _ hlt]
    simp
  have h2 : (objs.map (normSum (colMin objs) (colMax objs))).getD j 0 =
      normSum (colMin objs) (colMax objs) (objs.getD j (0, 0, 0)) := by
    rw [List.getD_eq_getElem _ _ hjm, List.getD_eq_getElem _ _ hj]
    simp
  have h3 := hmin j hjm
  rw [h1, h2] at h3
  exact h3

/-- Witness for C10 at the concrete front `[(4,0,0),(1,1,0),(3,2,2)]`. -/
theorem best_compromise_attains_min_normSum_witness :
    (([((4 : ℚ), (0 : ℚ), (0 : ℚ)), (1, 1, 0), (3, 2, 2)] : List (ℚ × ℚ × ℚ)) ≠ []) ∧
    (best_compromise [((4 : ℚ), (0 : ℚ), (0 : ℚ)), (1, 1, 0), (3, 2, 2)] <
      ([((4 : ℚ), (0 : ℚ), (0 : ℚ)), (1, 1, 0), (3, 2, 2)] : List (ℚ × ℚ × ℚ)).length) :=
  ⟨by decide,
    (best_compromise_attains_min_normSum
      [((4 : ℚ), (0 : ℚ), (0 : ℚ)), (1, 1, 0), (3, 2, 2)] (by decide)).1⟩

end Genetic

namespace GA

open Rng

theorem drawInitial_length : ∀ (k n : ℕ) (t : Tape), (drawInitial k n t).1.length = k := by
  intro k
  induction k with
  | zero => intro n t; rfl
  | succ k ih =>
    intro n t
    show ((drawWeights n t).1 :: (drawInitial k n (drawWeights n t).2).1).length = k + 1
    rw [List.length_cons, ih]

theorem gaReproduce_length (evaluated : List (List ℚ × Obj)) (populacao nAssets : ℕ) :
    ∀ (fuel : ℕ) (acc : List (List ℚ)) (t : Tape),
    acc.length ≤ populacao → populacao ≤ acc.length + fuel →
    (gaReproduce evaluated populacao nAssets fuel acc t).1.length = populacao := by
  intro fuel
  induction fuel with
  | zero =>
    intro acc t h1 h2
    show acc.length = populacao
    omega
  | succ fuel ih =>
    intro acc t h1 h2
    have hunf : gaReproduce evaluated populacao nAssets (fuel + 1) acc t =
        if acc.length < populacao then
          gaReproduce evaluated populacao nAssets fuel
            (acc ++ [(gaChild evaluated nAssets t).1]) (gaChild evaluated nAssets t).2
        else (acc, t) := rfl
    rw [hunf]
    by_cases hlt : acc.length < populacao
    · rw [if_pos hlt]
      apply ih
      · rw [List.length_append]
        simpa using hlt
      · rw [List.length_append]
        simp only [List.length_singleton]
        omega
    · rw [if_neg hlt]
      show acc.length = populacao
      omega

/-- With at least two individuals the generation step of `run_ga` cannot
raise: the elite count `max 2 (populacao / 10)` fits in the population and
the reproduction loop restores the population size. -/
theorem gaGeneration_ok (eval : List ℚ → Obj) (nAssets : ℕ) {populacao : ℕ}
    (st : List (List ℚ × Obj) × List HistoryRow × Tape) (gen : ℕ)
    (h2 : 2 ≤ populacao) (hlen : st.1.length = populacao) :
    ∃ st2, gaGeneration eval populacao nAssets st gen = .ok st2 ∧
      st2.1.length = populacao := by
  have hslen : (sortByFitness st.1).length = populacao := by
    rw [sortByFitness, List.length_insertionSort, hlen]
  have hne : ¬(sortByFitness st.1).length = 0 := by omega
  have helite : max 2 (populacao / 10) ≤ (sortByFitness st.1).length := by
    rw [hslen]
    exact max_le h2 (Nat.div_le_self _ _)
  unfold gaGeneration
  simp only [if_neg hne, if_pos helite]
  refine ⟨_, rfl, ?_⟩
  show ((gaReproduce (sortByFitness st.1) populacao nAssets populacao
      (((sortByFitness st.1).take (max 2 (populacao / 10))).map (·.1))
      st.2.2).1.map fun w => (w, eval w)).length = populacao
  rw [List.length_map]
  apply gaReproduce_length
  · rw [List.length_map, List.length_take]
    omega
  · rw [List.length_map, List.length_take]
    omega

/-- With at most one individual the generation step of `run_ga` raises:
either `evaluated[0]` (empty population) or the elite copy of
`max 2 (populacao / 10) ≥ 2` individuals fails. -/
theorem gaGeneration_small (eval : List ℚ → Obj) (populacao nAssets : ℕ)
    (st : List (List ℚ × Obj) × List HistoryRow × Tape) (gen : ℕ)
    (h : st.1.length ≤ 1) :
    gaGeneration eval populacao nAssets st gen = .error .indexError := by
  have hslen : (sortByFitness st.1).length = st.1.length := by
    rw [sortByFitness, List.length_insertionSort]
  unfold gaGeneration
  by_cases h0 : (sortByFitness st.1).length = 0
  · rw [if_pos h0]
  · have hcond : ¬max 2 (populacao / 10) ≤ (sortByFitness st.1).length := by omega
    simp only [if_neg h0, if_neg hcond]

theorem gaLoop_error (eval : List ℚ → Obj) (populacao nAssets : ℕ) (e : GaError) :
    ∀ (gens : List ℕ),
    gens.foldl (fun acc gen => acc.bind fun s => gaGeneration eval populacao nAssets s gen)
      (Except.error e) = .error e := by
  intro gens
  induction gens with
  | nil => rfl
  | cons g gens ih =>
    rw [List.foldl_cons]
    exact ih

theorem gaLoop_ok (eval : List ℚ → Obj) (nAssets : ℕ) {populacao : ℕ}
    (h2 : 2 ≤ populacao) :
    ∀ (gens : List ℕ) (st : List (List ℚ × Obj) × List HistoryRow × Tape),
    st.1.length = populacao →
    ∃ st2, gens.foldl
        (fun acc gen => acc.bind fun s => gaGeneration eval populacao nAssets s gen)
        (Except.ok st) = .ok st2 ∧ st2.1.length = populacao := by
  intro gens
  induction gens with
  | nil =>
    intro st hlen
    exact ⟨st, rfl, hlen⟩
  | cons g gens ih =>
    intro st hlen
    obtain ⟨st1, heq, hlen1⟩ := gaGeneration_ok eval nAssets st g h2 hlen
    rw [List.foldl_cons]
    have hstep : (Except.ok st).bind
        (fun s => gaGeneration eval populacao nAssets s g) = .ok st1 := heq
    rw [hstep]
    exact ih st1 hlen1

theorem gaLoop_cons_error (eval : List ℚ → Obj) (populacao nAssets : ℕ)
    (st : List (List ℚ × Obj) × List HistoryRow × Tape) (g : ℕ) (gens : List ℕ)
    (h : gaGeneration eval populacao nAssets st g = .error .indexError) :
    (g :: gens).foldl
      (fun acc gen => acc.bind fun s => gaGeneration eval populacao nAssets s gen)
      (Except.ok st) = .error .indexError := by
  rw [List.foldl_cons]
  have hstep : (Except.ok st).bind
      (fun s => gaGeneration eval populacao nAssets s g) = .error .indexError := h
  rw [hstep]
  exact gaLoop_error eval populacao nAssets .indexError gens

theorem isOk_map_of_eq_ok {α β γ : Type} {x : Except α β} (f : β → γ)
    (h : ∃ b, x = .ok b) : (x.map f).isOk = true := by
  obtain ⟨b, rfl⟩ := h
  rfl

theorem map_eq_error_of_eq_error {α β γ : Type} {x : Except α β} (f : β → γ) {e : α}
    (h : x = .error e) : x.map f = .error e := by
  rw [h]
  rfl

/-- C9 (amended): `run_ga` raises the ticker-mismatch and NaN-covariance
validation errors before any generation runs; a short return history
(fewer than 30 rows, but at least 2) does NOT raise, and the run returns ok
whenever the population can sustain the elite copy (`populacao ≥ 2`, or no
generations at all); with `populacao ≤ 1` and at least one generation the
run instead escapes with an IndexError from the generation loop, not a
validation error. -/
theorem run_ga_validation (matrix : List (List ℚ)) (tickers : List String)
    (populacao geracoes : ℕ) (eval : List ℚ → Obj) (t : Tape) :
    ((matrix.headD []).length ≠ tickers.length →
      run_ga matrix tickers populacao geracoes eval t = .error .tickerMismatch) ∧
    ((matrix.headD []).length = tickers.length → matrix.length < 2 →
      run_ga matrix tickers populacao geracoes eval t = .error .nanCovariance) ∧
    ((matrix.headD []).length = tickers.length → 2 ≤ matrix.length →
      2 ≤ populacao ∨ geracoes = 0 →
      (run_ga matrix tickers populacao geracoes eval t).isOk = true) ∧
    ((matrix.headD []).length = tickers.length → 2 ≤ matrix.length →
      populacao ≤ 1 → 1 ≤ geracoes →
      run_ga matrix tickers populacao geracoes eval t = .error .indexError) := by
  refine ⟨?_, ?_, ?_, ?_⟩
  · intro h
    unfold run_ga
    rw [if_pos h]
  · intro h1 h2
    unfold run_ga
    rw [if_neg (fun hc => hc h1), if_pos h2]
  · intro h1 h2 hpg
    unfold run_ga
    rw [if_neg (fun hc => hc h1), if_neg (by omega)]
    rcases hpg with hpop | hg0
    · obtain ⟨st2, heq, _⟩ := gaLoop_ok eval (matrix.headD []).length hpop
        (List.range geracoes)
        ((drawInitial populacao (matrix.headD []).length t).1.map fun w => (w, eval w),
         ([] : List HistoryRow),
         (drawInitial populacao (matrix.headD []).length t).2)
        (by rw [List.length_map, drawInitial_length])
      exact isOk_map_of_eq_ok _ ⟨st2, heq⟩
    · subst hg0
      rfl
  · intro h1 h2 hp hg
    unfold run_ga
    rw [if_neg (fun hc => hc h1), if_neg (by omega)]
    apply map_eq_error_of_eq_error
    obtain ⟨g, rfl⟩ : ∃ g, geracoes = g + 1 := ⟨geracoes - 1, by omega⟩
    rw [List.range_succ_eq_map]
    apply gaLoop_cons_error
    apply gaGeneration_small
    show ((drawInitial populacao (matrix.headD []).length t).1.map
      fun w => (w, eval w)).length ≤ 1
    rw [List.length_map, drawInitial_length]
    exact hp

/-- Witness for C9 (amended) at concrete inputs: a one-ticker mismatch
raises, a valid 2-asset matrix with two individuals returns an ok result,
and a single-individual population with one generation escapes with the
IndexError of the elite copy. -/
theorem run_ga_validation_witness :
    (([[(1 : ℚ), 2]].headD []).length ≠ ([] : List String).length) ∧
    run_ga [[(1 : ℚ), 2]] [] 1 1 (fun _ => (0, 0, 0, 0))
      ⟨fun _ => 0, fun _ _ => 0, fun _ => 0, 0⟩ = .error .tickerMismatch ∧
    (([[(1 : ℚ), 2], [0, 1]].headD []).length = (["A", "B"] : List String).length) ∧
    (run_ga [[(1 : ℚ), 2], [0, 1]] ["A", "B"] 2 1 (fun _ => (0, 0, 0, 0))
      ⟨fun _ => 0, fun _ _ => 0, fun _ => 0, 0⟩).isOk = true ∧
    run_ga [[(1 : ℚ), 2], [0, 1]] ["A", "B"] 1 1 (fun _ => (0, 0, 0, 0))
      ⟨fun _ => 0, fun _ _ => 0, fun _ => 0, 0⟩ = .error .indexError :=
  ⟨by decide,
    (run_ga_validation [[(1 : ℚ), 2]] [] 1 1 (fun _ => (0, 0, 0, 0))
      ⟨fun _ => 0, fun _ _ => 0, fun _ => 0, 0⟩).1 (by decide),
    by decide,
    (run_ga_validation [[(1 : ℚ), 2], [0, 1]] ["A", "B"] 2 1 (fun _ => (0, 0, 0, 0))
      ⟨fun _ => 0, fun _ _ => 0, fun _ => 0, 0⟩).2.2.1 (by decide) (by decide)
      (Or.inl (by decide)),
    (run_ga_validation [[(1 : ℚ), 2], [0, 1]] ["A", "B"] 1 1 (fun _ => (0, 0, 0, 0))
      ⟨fun _ => 0, fun _ _ => 0, fun _ => 0, 0⟩).2.2.2 (by decide) (by decide)
      (by decide) (by decide)⟩

/-- C9 counterexample: a 5-row return matrix (fewer than 30 rows) with
matching tickers does not raise — `run_ga` returns an ok result and the
generation loop runs. -/
theorem run_ga_few_rows_no_error :
    (5 < 30) ∧
    (run_ga [[(1 : ℚ), 2], [0, 1], [2, 0], [1, 1], [0, 0]] ["A", "B"] 2 1
      (fun _ => (0, 0, 0, 0)) ⟨fun _ => 0, fun _ _ => 0, fun _ => 0, 0⟩).isOk = true := by
  exact ⟨by norm_num, rfl⟩

end GA

namespace NSGA2

open Rng

theorem decRound (L : List ℕ) : L.Nodup → ∀ (np : ℕ → ℤ) (Q : List ℕ),
    L.foldl
      (fun st q =>
        let np2 := Function.update st.1 q (st.1 q - 1)
        (np2, if np2 q = 0 then st.2 ++ [q] else st.2)) (np, Q) =
    (fun q => if q ∈ L then np q - 1 else np q,
     Q ++ L.filter fun q => decide (np q = 1)) := by
  induction L with
  | nil =>
    intro _ np Q
    simp
  | cons a L ih =>
    intro hL np Q
    have hnd := List.nodup_cons.mp hL
    rw [List.foldl_cons]
    conv_lhs =>
      arg 2
      simp only [Function.update_same, sub_eq_zero]
    rw [ih hnd.2]
    have hupd : ∀ q ∈ L, Function.update np a (np a - 1) q = np q := by
      intro q hq
      refine Function.update_noteq ?_ _ np
      rintro rfl
      exact hnd.1 hq
    have hfiltereq : (L.filter fun q => decide (Function.update np a (np a - 1) q = 1)) =
        L.filter fun q => decide (np q = 1) := by
      apply List.filter_congr
      intro q hq
      rw [hupd q hq]
    refine Prod.ext ?_ ?_
    · funext q
      by_cases hqa : q = a
      · subst hqa
        simp [Function.update_same, hnd.1]
      · by_cases hqL : q ∈ L <;>
          simp [Function.update_noteq hqa, hqa, hqL]
    · show (if np a = 1 then Q ++ [a] else Q) ++
        (L.filter fun q => decide (Function.update np a (np a - 1) q = 1)) =
        Q ++ (a :: L).filter fun q => decide (np q = 1)
      rw [hfiltereq, List.filter_cons]
      by_cases ha : np a = 1
      · simp [ha]
      · simp [ha]

theorem peelOne_eq (S : ℕ → List ℕ) {p : ℕ} (hSp : (S p).Nodup) (np : ℕ → ℤ)
    (Q : List ℕ) :
    peelOne S (np, Q) p =
      (fun q => if q ∈ S p then np q - 1 else np q,
       Q ++ (S p).filter fun q => decide (np q = 1)) :=
  decRound (S p) hSp np Q

theorem cntIn_cons (S : ℕ → List ℕ) (p : ℕ) (F : List ℕ) (q : ℕ) :
    cntIn S (p :: F) q = cntIn S F q + if q ∈ S p then 1 else 0 := by
  simp [cntIn, List.countP_cons]

/-- Effect of one full peeling round over the front `F`: every counter drops
by the number of its dominators inside `F`, and exactly those `q` whose
counter is consumed completely (and positively) by `F` are appended. -/
theorem peelRound (S : ℕ → List ℕ) (hS : ∀ p, (S p).Nodup) :
    ∀ (F : List ℕ) (np : ℕ → ℤ) (Q : List ℕ),
    (∀ q, (cntIn S F q : ℤ) ≤ np q) →
    ((F.foldl (peelOne S) (np, Q)).1 = fun q => np q - cntIn S F q) ∧
    (∀ q, q ∈ (F.foldl (peelOne S) (np, Q)).2 ↔
      q ∈ Q ∨ ((np q : ℤ) = cntIn S F q ∧ 1 ≤ cntIn S F q)) := by
  intro F
  induction F with
  | nil =>
    intro np Q _
    constructor
    · funext q
      simp [cntIn]
    · intro q
      simp [cntIn]
  | cons p F ih =>
    intro np Q hcnt
    rw [List.foldl_cons, peelOne_eq S (hS p) np Q]
    have hcnt2 : ∀ q, (cntIn S F q : ℤ) ≤
        (fun q => if q ∈ S p then np q - 1 else np q) q := by
      intro q
      have h1 := hcnt q
      have h2 := cntIn_cons S p F q
      by_cases hqS : q ∈ S p
      · simp only [if_pos hqS] at h2 ⊢
        omega
      · simp only [if_neg hqS] at h2 ⊢
        omega
    obtain ⟨hfst, hsnd⟩ := ih (fun q => if q ∈ S p then np q - 1 else np q)
      (Q ++ (S p).filter fun q => decide (np q = 1)) hcnt2
    constructor
    · rw [hfst]
      funext q
      have h2 := cntIn_cons S p F q
      by_cases hqS : q ∈ S p
      · simp only [if_pos hqS] at h2 ⊢
        omega
      · simp only [if_neg hqS] at h2 ⊢
        omega
    · intro q
      rw [hsnd q]
      have h1 := hcnt q
      have h2 := cntIn_cons S p F q
      simp only [List.mem_append, List.mem_filter, decide_eq_true_eq]
      by_cases hqS : q ∈ S p
      · simp only [if_pos hqS] at h2 ⊢
        constructor
        · rintro ((hq | ⟨_, hnp⟩) | ⟨heq, hge⟩)
          · exact Or.inl hq
          · refine Or.inr ⟨?_, ?_⟩ <;> omega
          · refine Or.inr ⟨?_, ?_⟩ <;> omega
        · rintro (hq | ⟨heq, hge⟩)
          · exact Or.inl (Or.inl hq)
          · by_cases hcz : cntIn S F q = 0
            · exact Or.inl (Or.inr ⟨hqS, by omega⟩)
            · exact Or.inr ⟨by omega, by omega⟩
      · simp only [if_neg hqS] at h2 ⊢
        constructor
        · rintro ((hq | ⟨hmem, _⟩) | ⟨heq, hge⟩)
          · exact Or.inl hq
          · exact absurd hmem hqS
          · exact Or.inr ⟨by omega, by omega⟩
        · rintro (hq | ⟨heq, hge⟩)
          · exact Or.inl (Or.inl hq)
          · exact Or.inr ⟨by omega, by omega⟩

/-- The appended front of a peeling round has no duplicates: a counter
passes through zero at most once. -/
theorem peelRound_nodup (S : ℕ → List ℕ) (hS : ∀ p, (S p).Nodup) :
    ∀ (F : List ℕ) (np : ℕ → ℤ) (Q : List ℕ),
    (∀ q, (cntIn S F q : ℤ) ≤ np q) → Q.Nodup →
    (∀ q ∈ Q, ¬((np q : ℤ) = cntIn S F q ∧ 1 ≤ cntIn S F q)) →
    (F.foldl (peelOne S) (np, Q)).2.Nodup := by
  intro F
  induction F with
  | nil =>
    intro np Q _ hQ _
    simpa using hQ
  | cons p F ih =>
    intro np Q hcnt hQ hQnew
    rw [List.foldl_cons, peelOne_eq S (hS p) np Q]
    have hcnt2 : ∀ q, (cntIn S F q : ℤ) ≤
        (fun q => if q ∈ S p then np q - 1 else np q) q := by
      intro q
      have h1 := hcnt q
      have h2 := cntIn_cons S p F q
      by_cases hqS : q ∈ S p
      · simp only [if_pos hqS] at h2 ⊢
        omega
      · simp only [if_neg hqS] at h2 ⊢
        omega
    apply ih (fun q => if q ∈ S p then np q - 1 else np q)
      (Q ++ (S p).filter fun q => decide (np q = 1)) hcnt2
    · rw [List.nodup_append]
      refine ⟨hQ, (hS p).filter _, ?_⟩
      intro q hq hqf
      rw [List.mem_filter, decide_eq_true_eq] at hqf
      have h1 := hcnt q
      have h2 := cntIn_cons S p F q
      simp only [if_pos hqf.1] at h2
      exact hQnew q hq ⟨by omega, by omega⟩
    · intro q hq
      rw [List.mem_append] at hq
      have h2 := cntIn_cons S p F q
      rcases hq with hq | hqf
      · intro ⟨heq, hge⟩
        by_cases hqS : q ∈ S p
        · simp only [if_pos hqS] at h2 heq
          exact hQnew q hq ⟨by omega, by omega⟩
        · simp only [if_neg hqS] at h2 heq
          exact hQnew q hq ⟨by omega, by omega⟩
      · rw [List.mem_filter, decide_eq_true_eq] at hqf
        intro ⟨heq, hge⟩
        simp only [if_pos hqf.1] at heq
        omega

theorem mem_unassigned {n : ℕ} {A F : List ℕ} {q : ℕ} :
    q ∈ unassigned n A F ↔ q < n ∧ q ∉ A ∧ q ∉ F := by
  simp [unassigned, List.mem_filter, and_assoc]

theorem unassigned_nodup (n : ℕ) (A F : List ℕ) : (unassigned n A F).Nodup :=
  (List.nodup_range n).filter _

theorem cntIn_eq_zero {S : ℕ → List ℕ} {F : List ℕ} {q : ℕ} :
    cntIn S F q = 0 ↔ ∀ p ∈ F, q ∉ S p := by
  simp [cntIn, List.countP_eq_zero]

theorem one_le_cntIn {S : ℕ → List ℕ} {F : List ℕ} {q : ℕ} :
    1 ≤ cntIn S F q ↔ ∃ p ∈ F, q ∈ S p := by
  rw [Nat.one_le_iff_ne_zero, ← Nat.pos_iff_ne_zero]
  simp [cntIn, List.countP_pos_iff]

theorem cntIn_perm {S : ℕ → List ℕ} {l1 l2 : List ℕ} (h : l1.Perm l2) (q : ℕ) :
    cntIn S l1 q = cntIn S l2 q :=
  h.countP_eq _

theorem cntIn_append (S : ℕ → List ℕ) (l1 l2 : List ℕ) (q : ℕ) :
    cntIn S (l1 ++ l2) q = cntIn S l1 q + cntIn S l2 q :=
  List.countP_append _ _ _

/-- Under the invariant, no member of the current front dominates an
assigned index, so counters of assigned (or out-of-range) indices are not
decremented. -/
theorem cntIn_front_assigned_zero {S : ℕ → List ℕ} {n : ℕ} {A F : List ℕ} {np : ℕ → ℤ}
    (hSub : ∀ p, ∀ x ∈ S p, x < n)
    (inv : PeelInv S n A F np) {q : ℕ} (hq : q ∈ A ++ F ∨ ¬q < n) :
    cntIn S F q = 0 := by
  rw [cntIn_eq_zero]
  intro p hp hqS
  rcases hq with hq | hq
  · have hpn : p < n := inv.inRange p (List.mem_append_right A hp)
    have hpA : p ∈ A := inv.assignedClosed q hq p hqS hpn
    have := inv.nodup
    rw [List.nodup_append] at this
    exact this.2.2 hpA hp
  · exact hq (hSub p q hqS)

/-- Under the invariant every counter dominates the number of decrements the
round over `F` will apply to it. -/
theorem cntIn_le_np {S : ℕ → List ℕ} {n : ℕ} {A F : List ℕ} {np : ℕ → ℤ}
    (hSub : ∀ p, ∀ x ∈ S p, x < n)
    (inv : PeelInv S n A F np) : ∀ q, (cntIn S F q : ℤ) ≤ np q := by
  intro q
  by_cases hqn : q < n
  · by_cases hqA : q ∈ A
    · rw [cntIn_front_assigned_zero hSub inv (Or.inl (List.mem_append_left F hqA))]
      exact inv.nonneg q
    · by_cases hqF : q ∈ F
      · rw [cntIn_front_assigned_zero hSub inv (Or.inl (List.mem_append_right A hqF))]
        exact inv.nonneg q
      · have := (inv.counts q hqn hqA hqF).1
        have h2 := (inv.counts q hqn hqA hqF).2
        omega
  · rw [cntIn_front_assigned_zero hSub inv (Or.inr hqn)]
    exact inv.nonneg q

/-- A finite nonempty set ordered by a transitive irreflexive relation has a
minimal element. -/
theorem exists_minimal_mem (S : ℕ → List ℕ)
    (hTrans : ∀ p q r, q ∈ S p → r ∈ S q → r ∈ S p)
    (hIrr : ∀ p, p ∉ S p) :
    ∀ (l : List ℕ), l ≠ [] → ∃ q ∈ l, ∀ p ∈ l, q ∉ S p := by
  intro l
  induction l with
  | nil => exact fun h => absurd rfl h
  | cons a l ih =>
    intro _
    by_cases hl : l = []
    · subst hl
      refine ⟨a, List.mem_singleton_self a, ?_⟩
      intro p hp
      rw [List.mem_singleton] at hp
      subst hp
      exact hIrr _
    · obtain ⟨m, hm, hmin⟩ := ih hl
      by_cases ham : m ∈ S a
      · refine ⟨a, List.mem_cons_self a l, ?_⟩
        intro p hp
        rcases List.mem_cons.mp hp with rfl | hp
        · exact hIrr _
        · exact fun haS => hmin p hp (hTrans p a m haS ham)
      · refine ⟨m, List.mem_cons_of_mem a hm, ?_⟩
        intro p hp
        rcases List.mem_cons.mp hp with rfl | hp
        · exact ham
        · exact hmin p hp

theorem fndsLoop_succ (S : ℕ → List ℕ) (fuel : ℕ) (np : ℕ → ℤ) (F : List ℕ) :
    fndsLoop S (fuel + 1) np F =
      if F.isEmpty then []
      else if (peelFront S np F).2.isEmpty then []
      else (peelFront S np F).2 ::
        fndsLoop S fuel (peelFront S np F).1 (peelFront S np F).2 := rfl

/-- Main loop invariant argument: starting from a state satisfying
`PeelInv`, the peeling loop emits fronts whose concatenation is exactly the
set of still-unassigned indices, without duplicates. -/
theorem fndsLoop_spec (S : ℕ → List ℕ) (n : ℕ)
    (hSnd : ∀ p, (S p).Nodup)
    (hSub : ∀ p, ∀ x ∈ S p, x < n)
    (hTrans : ∀ p q r, q ∈ S p → r ∈ S q → r ∈ S p)
    (hIrr : ∀ p, p ∉ S p) :
    ∀ (fuel : ℕ) (A F : List ℕ) (np : ℕ → ℤ),
    PeelInv S n A F np → F ≠ [] → (unassigned n A F).length < fuel →
    (fndsLoop S fuel np F).flatten.Nodup ∧
    (∀ x, x ∈ (fndsLoop S fuel np F).flatten ↔ x ∈ unassigned n A F) := by
  intro fuel
  induction fuel with
  | zero =>
    intro A F np _ _ h
    omega
  | succ fuel ih =>
    intro A F np inv hF hfuel
    have hcle := cntIn_le_np hSub inv
    have hfst : (peelFront S np F).1 = fun q => np q - cntIn S F q :=
      (peelRound S hSnd F np [] hcle).1
    have hsnd : ∀ q, q ∈ (peelFront S np F).2 ↔
        q ∈ ([] : List ℕ) ∨ ((np q : ℤ) = cntIn S F q ∧ 1 ≤ cntIn S F q) :=
      (peelRound S hSnd F np [] hcle).2
    have hF2nodup : (peelFront S np F).2.Nodup :=
      peelRound_nodup S hSnd F np [] hcle List.nodup_nil (by simp)
    have hQchar : ∀ q, q ∈ (peelFront S np F).2 ↔
        q ∈ unassigned n A F ∧ cntIn S (unassigned n A F) q = 0 ∧ 1 ≤ cntIn S F q := by
      intro q
      rw [hsnd q]
      simp only [List.not_mem_nil, false_or]
      constructor
      · rintro ⟨heq, hge⟩
        have hqn : q < n := by
          obtain ⟨p, hp, hqS⟩ := one_le_cntIn.mp hge
          exact hSub p q hqS
        have hqAF : q ∉ A ++ F := by
          intro hmem
          rw [cntIn_front_assigned_zero hSub inv (Or.inl hmem)] at heq hge
          omega
        rw [List.mem_append] at hqAF
        push_neg at hqAF
        have hc := (inv.counts q hqn hqAF.1 hqAF.2).1
        exact ⟨mem_unassigned.mpr ⟨hqn, hqAF.1, hqAF.2⟩, by omega, hge⟩
      · rintro ⟨hqU, hzero, hge⟩
        obtain ⟨hqn, hqA, hqF⟩ := mem_unassigned.mp hqU
        have hc := (inv.counts q hqn hqA hqF).1
        exact ⟨by omega, hge⟩
    have hFne : ¬F.isEmpty = true := by
      simpa [List.isEmpty_iff] using hF
    by_cases hU : unassigned n A F = []
    · have hQnil : (peelFront S np F).2 = [] := by
        rw [List.eq_nil_iff_forall_not_mem]
        intro q hq
        have h1 := ((hQchar q).mp hq).1
        rw [hU] at h1
        exact List.not_mem_nil q h1
      rw [fndsLoop_succ, if_neg hFne, if_pos (by simp [hQnil])]
      constructor
      · simp
      · intro x
        simp [hU]
    · obtain ⟨m, hmU, hmmin⟩ := exists_minimal_mem S hTrans hIrr _ hU
      have hmQ : m ∈ (peelFront S np F).2 := by
        rw [hQchar m]
        obtain ⟨hmn, hmA, hmF⟩ := mem_unassigned.mp hmU
        have hc := inv.counts m hmn hmA hmF
        have hzero : cntIn S (unassigned n A F) m = 0 := cntIn_eq_zero.mpr hmmin
        exact ⟨hmU, hzero, by omega⟩
      have hF2ne : (peelFront S np F).2 ≠ [] := List.ne_nil_of_mem hmQ
      have hQne : ¬(peelFront S np F).2.isEmpty = true := by
        simpa [List.isEmpty_iff] using hF2ne
      rw [fndsLoop_succ, if_neg hFne, if_neg hQne]
      have hF2subU : ∀ q ∈ (peelFront S np F).2, q ∈ unassigned n A F :=
        fun q hq => ((hQchar q).mp hq).1
      have hU2mem : ∀ x, x ∈ unassigned n (A ++ F) (peelFront S np F).2 ↔
          x ∈ unassigned n A F ∧ x ∉ (peelFront S np F).2 := by
        intro x
        rw [mem_unassigned, mem_unassigned, List.mem_append]
        tauto
      have hAFdisjF2 : ∀ q ∈ A ++ F, q ∉ (peelFront S np F).2 := by
        intro q hq hq2
        obtain ⟨_, hqA, hqF⟩ := mem_unassigned.mp (hF2subU q hq2)
        rw [List.mem_append] at hq
        tauto
      have hU2nodup := unassigned_nodup n (A ++ F) (peelFront S np F).2
      have happnodup : ((peelFront S np F).2 ++
          unassigned n (A ++ F) (peelFront S np F).2).Nodup := by
        rw [List.nodup_append]
        refine ⟨hF2nodup, hU2nodup, ?_⟩
        intro q hq hq2
        exact ((hU2mem q).mp hq2).2 hq
      have hperm : (unassigned n A F).Perm
          ((peelFront S np F).2 ++ unassigned n (A ++ F) (peelFront S np F).2) := by
        rw [List.perm_ext_iff_of_nodup (unassigned_nodup n A F) happnodup]
        intro x
        rw [List.mem_append, hU2mem x]
        constructor
        · intro hx
          by_cases hx2 : x ∈ (peelFront S np F).2
          · exact Or.inl hx2
          · exact Or.inr ⟨hx, hx2⟩
        · rintro (hx | ⟨hx, _⟩)
          · exact hF2subU x hx
          · exact hx
      have inv2 : PeelInv S n (A ++ F) (peelFront S np F).2 (peelFront S np F).1 := by
        refine ⟨?_, ?_, ?_, ?_, ?_⟩
        · rw [List.nodup_append]
          exact ⟨inv.nodup, hF2nodup, hAFdisjF2⟩
        · intro x hx
          rw [List.mem_append] at hx
          rcases hx with hx | hx
          · exact inv.inRange x hx
          · exact (mem_unassigned.mp (hF2subU x hx)).1
        · intro q hq p hqS hpn
          rw [List.mem_append] at hq
          rcases hq with hq | hq
          · exact List.mem_append_left F (inv.assignedClosed q hq p hqS hpn)
          · have hzero := ((hQchar q).mp hq).2.1
            rw [cntIn_eq_zero] at hzero
            have hpU : p ∉ unassigned n A F := fun hpu => hzero p hpu hqS
            rw [mem_unassigned] at hpU
            push_neg at hpU
            rw [List.mem_append]
            by_cases hpA : p ∈ A
            · exact Or.inl hpA
            · exact Or.inr (hpU hpn hpA)
        · intro q
          have h0 : (peelFront S np F).1 q = np q - cntIn S F q := by
            rw [hfst]
          have := hcle q
          omega
        · intro q hqn hqAF hqF2
          have hqA : q ∉ A := fun h => hqAF (List.mem_append_left F h)
          have hqF : q ∉ F := fun h => hqAF (List.mem_append_right A h)
          have hc := inv.counts q hqn hqA hqF
          have hnp2 : (peelFront S np F).1 q = np q - cntIn S F q := by
            rw [hfst]
          have hsplit : cntIn S (unassigned n A F) q =
              cntIn S (peelFront S np F).2 q +
              cntIn S (unassigned n (A ++ F) (peelFront S np F).2) q := by
            rw [cntIn_perm hperm, cntIn_append]
          have hnotQ := (fun h => hqF2 ((hQchar q).mpr h))
          have hUpos : 1 ≤ cntIn S (unassigned n A F) q := by
            by_contra hle
            push_neg at hle
            have hzero : cntIn S (unassigned n A F) q = 0 := by omega
            have hqU : q ∈ unassigned n A F := mem_unassigned.mpr ⟨hqn, hqA, hqF⟩
            have hcF : 1 ≤ cntIn S F q := by omega
            exact hnotQ ⟨hqU, hzero, hcF⟩
          constructor
          · rw [hnp2]
            omega
          · rw [hnp2]
            omega
      have hlen := hperm.length_eq
      rw [List.length_append] at hlen
      have hF2pos : 0 < (peelFront S np F).2.length := List.length_pos.mpr hF2ne
      have hfuel2 : (unassigned n (A ++ F) (peelFront S np F).2).length < fuel := by
        omega
      obtain ⟨ihnodup, ihmem⟩ := ih (A ++ F) (peelFront S np F).2 (peelFront S np F).1
        inv2 hF2ne hfuel2
      rw [List.flatten_cons]
      constructor
      · rw [List.nodup_append]
        refine ⟨hF2nodup, ihnodup, ?_⟩
        intro q hq hq2
        exact ((hU2mem q).mp ((ihmem q).mp hq2)).2 hq
      · intro x
        rw [List.mem_append, ihmem x, hperm.mem_iff, List.mem_append]

theorem domSucc_nodup (pop : List (ℚ × ℚ)) (p : ℕ) : (domSucc pop p).Nodup :=
  (List.nodup_range pop.length).filter _

theorem domSucc_sub (pop : List (ℚ × ℚ)) : ∀ p, ∀ x ∈ domSucc pop p, x < pop.length :=
  fun _ _ hx => (mem_domSucc.mp hx).1

theorem domSucc_trans (pop : List (ℚ × ℚ)) :
    ∀ p q r, q ∈ domSucc pop p → r ∈ domSucc pop q → r ∈ domSucc pop p := by
  intro p q r hq hr
  obtain ⟨hqn, hqp, hDpq⟩ := mem_domSucc.mp hq
  obtain ⟨hrn, hrq, hDqr⟩ := mem_domSucc.mp hr
  have hDpr := dominates_trans hDpq hDqr
  refine mem_domSucc.mpr ⟨hrn, ?_, hDpr⟩
  rintro rfl
  exact dominates_asymm hDpq hDqr

theorem domSucc_irrefl (pop : List (ℚ × ℚ)) : ∀ p, p ∉ domSucc pop p := by
  intro p hp
  exact (mem_domSucc.mp hp).2.1 rfl

theorem npInit_eq_cntIn (pop : List (ℚ × ℚ)) {q : ℕ} (hq : q < pop.length) :
    npInit pop q = cntIn (domSucc pop) (List.range pop.length) q := by
  unfold npInit cntIn
  rw [← List.countP_eq_length_filter]
  norm_cast
  apply List.countP_congr
  intro p hp
  rw [List.mem_range] at hp
  simp only [Bool.and_eq_true, decide_eq_true_eq, mem_domSucc]
  constructor
  · rintro ⟨h1, h2⟩
    exact ⟨hq, Ne.symm h1, h2⟩
  · rintro ⟨_, h1, h2⟩
    exact ⟨Ne.symm h1, h2⟩

theorem front0_nodup (pop : List (ℚ × ℚ)) : (front0 pop).Nodup :=
  (List.nodup_range pop.length).filter _

theorem range_perm_front0_unassigned (pop : List (ℚ × ℚ)) :
    (List.range pop.length).Perm
      (front0 pop ++ unassigned pop.length [] (front0 pop)) := by
  have hnodup : (front0 pop ++ unassigned pop.length [] (front0 pop)).Nodup := by
    rw [List.nodup_append]
    refine ⟨front0_nodup pop, unassigned_nodup _ _ _, ?_⟩
    intro q hq hq2
    exact (mem_unassigned.mp hq2).2.2 hq
  rw [List.perm_ext_iff_of_nodup (List.nodup_range _) hnodup]
  intro x
  rw [List.mem_range, List.mem_append, mem_unassigned]
  constructor
  · intro hx
    by_cases hxf : x ∈ front0 pop
    · exact Or.inl hxf
    · exact Or.inr ⟨hx, List.not_mem_nil x, hxf⟩
  · rintro (hx | ⟨hx, _, _⟩)
    · exact (mem_front0.mp hx).1
    · exact hx

/-- The fronts produced by `fast_non_dominated_sort` partition the
population: their concatenation is a permutation of `range n`. -/
theorem fnds_partition (pop : List (ℚ × ℚ)) :
    (fast_non_dominated_sort pop).flatten.Nodup ∧
    (∀ x, x ∈ (fast_non_dominated_sort pop).flatten ↔ x < pop.length) ∧
    (fast_non_dominated_sort pop).flatten.Perm (List.range pop.length) := by
  by_cases hn : pop.length = 0
  · have hfr : front0 pop = [] := by
      unfold front0
      rw [hn]
      rfl
    refine ⟨?_, ?_, ?_⟩ <;>
      simp [fast_non_dominated_sort, hfr, hn, fndsLoop]
  · have hpos : 0 < pop.length := Nat.pos_of_ne_zero hn
    have hfr : front0 pop ≠ [] := by
      obtain ⟨m, hm, hmmin⟩ := exists_minimal_mem (domSucc pop) (domSucc_trans pop)
        (domSucc_irrefl pop) (List.range pop.length)
        (by simpa [List.range_eq_nil] using hn)
      apply List.ne_nil_of_mem (a := m)
      rw [List.mem_range] at hm
      rw [mem_front0]
      refine ⟨hm, ?_⟩
      rw [npInit_eq_cntIn pop hm]
      exact_mod_cast cntIn_eq_zero.mpr hmmin
    have hsplit : ∀ q, q < pop.length →
        npInit pop q = cntIn (domSucc pop) (front0 pop) q +
          cntIn (domSucc pop) (unassigned pop.length [] (front0 pop)) q := by
      intro q hq
      rw [npInit_eq_cntIn pop hq, cntIn_perm (range_perm_front0_unassigned pop),
        cntIn_append]
      norm_cast
    have inv0 : PeelInv (domSucc pop) pop.length [] (front0 pop) (npInit pop) := by
      refine ⟨?_, ?_, ?_, ?_, ?_⟩
      · rw [List.nil_append]
        exact front0_nodup pop
      · intro x hx
        rw [List.nil_append] at hx
        exact (mem_front0.mp hx).1
      · intro q hq p hqS hpn
        rw [List.nil_append] at hq
        have hz := (mem_front0.mp hq).2
        rw [npInit_eq_cntIn pop (mem_front0.mp hq).1] at hz
        have : cntIn (domSucc pop) (List.range pop.length) q = 0 := by exact_mod_cast hz
        rw [cntIn_eq_zero] at this
        exact absurd hqS (this p (List.mem_range.mpr hpn))
      · exact npInit_nonneg pop
      · intro q hqn _ hqF
        constructor
        · exact hsplit q hqn
        · have hnz : npInit pop q ≠ 0 := by
            intro h0
            exact hqF (mem_front0.mpr ⟨hqn, h0⟩)
          have := npInit_nonneg pop q
          omega
    have hlenperm := (range_perm_front0_unassigned pop).length_eq
    rw [List.length_range, List.length_append] at hlenperm
    have hfrpos : 0 < (front0 pop).length := List.length_pos.mpr hfr
    have hfuel : (unassigned pop.length [] (front0 pop)).length < pop.length := by
      omega
    obtain ⟨lnodup, lmem⟩ := fndsLoop_spec (domSucc pop) pop.length
      (domSucc_nodup pop) (domSucc_sub pop) (domSucc_trans pop) (domSucc_irrefl pop)
      pop.length [] (front0 pop) (npInit pop) inv0 hfr hfuel
    have hflat : (fast_non_dominated_sort pop).flatten =
        front0 pop ++ (fndsLoop (domSucc pop) pop.length (npInit pop)
          (front0 pop)).flatten := by
      rfl
    have hmem : ∀ x, x ∈ (fast_non_dominated_sort pop).flatten ↔ x < pop.length := by
      intro x
      rw [hflat, List.mem_append, lmem x]
      have := (range_perm_front0_unassigned pop).mem_iff (a := x)
      rw [List.mem_range, List.mem_append] at this
      exact this.symm
    have hnodup : (fast_non_dominated_sort pop).flatten.Nodup := by
      rw [hflat, List.nodup_append]
      refine ⟨front0_nodup pop, lnodup, ?_⟩
      intro q hq hq2
      exact (mem_unassigned.mp ((lmem q).mp hq2)).2.2 hq
    refine ⟨hnodup, hmem, ?_⟩
    rw [List.perm_ext_iff_of_nodup hnodup (List.nodup_range _)]
    intro x
    rw [hmem x, List.mem_range]

theorem nsga2Fill_cons (popW : List (List ℚ)) (popObj : List (ℚ × ℚ)) (populacao : ℕ)
    (F : List ℕ) (rest : List (List ℕ)) (accW : List (List ℚ)) (accO : List (ℚ × ℚ)) :
    nsga2Fill popW popObj populacao (F :: rest) (accW, accO) =
      if accW.length < populacao then
        if accW.length + F.length ≤ populacao then
          nsga2Fill popW popObj populacao rest
            (accW ++ F.map fun i => popW.getD i [],
             accO ++ F.map fun i => popObj.getD i (0, 0))
        else
          let remaining := populacao - accW.length
          let distances := crowding_distance F popObj
          let sortedIdx := List.insertionSort
            (fun i j => distances.getD j 0 ≤ distances.getD i 0) (List.range F.length)
          let chosen := (sortedIdx.take remaining).map fun i => F.getD i 0
          (accW ++ chosen.map fun idx => popW.getD idx [],
           accO ++ chosen.map fun idx => popObj.getD idx (0, 0))
      else (accW, accO) := rfl

/-- When the incoming fronts hold at most the remaining capacity, the
environmental selection copies every front whole: the crowding-distance
truncation branch is never taken. -/
theorem nsga2Fill_copy_all (popW : List (List ℚ)) (popObj : List (ℚ × ℚ)) (populacao : ℕ) :
    ∀ (fronts : List (List ℕ)) (accW : List (List ℚ)) (accO : List (ℚ × ℚ)),
    accW.length + fronts.flatten.length ≤ populacao →
    nsga2Fill popW popObj populacao fronts (accW, accO) =
      (accW ++ fronts.flatten.map fun i => popW.getD i [],
       accO ++ fronts.flatten.map fun i => popObj.getD i (0, 0)) := by
  intro fronts
  induction fronts with
  | nil =>
    intro accW accO _
    simp [nsga2Fill]
  | cons F rest ih =>
    intro accW accO hle
    rw [List.flatten_cons, List.length_append] at hle
    rw [nsga2Fill_cons]
    by_cases hlt : accW.length < populacao
    · have hfits : accW.length + F.length ≤ populacao := by omega
      rw [if_pos hlt, if_pos hfits, ih _ _ (by
        rw [List.length_append, List.length_map]
        omega)]
      rw [List.flatten_cons, List.map_append, List.map_append, List.append_assoc,
        List.append_assoc]
    · have hF : F.length = 0 := by omega
      have hrest : rest.flatten.length = 0 := by omega
      rw [List.length_eq_zero] at hF hrest
      rw [if_neg hlt, List.flatten_cons, hF, hrest]
      simp

theorem map_getD_range {α : Type} (l : List α) (d : α) :
    (List.range l.length).map (fun i => l.getD i d) = l := by
  apply List.ext_getElem
  · simp
  · intro i h1 h2
    rw [List.getElem_map, List.getElem_range, List.getD_eq_getElem l d h2]

/-- With a full population the reproduction loop exits immediately. -/
theorem nsga2Reproduce_noop (eval : List ℚ → ℚ × ℚ) (populacao nAssets fuel : ℕ)
    (st : List (List ℚ) × List (ℚ × ℚ) × Rng.Tape)
    (h : ¬st.1.length < populacao) :
    nsga2Reproduce eval populacao nAssets fuel st = st := by
  cases fuel with
  | zero => rfl
  | succ fuel =>
    show (if st.1.length < populacao then _ else st) = st
    rw [if_neg h]

/-- One generation of the embedded `run_nsga2` with a full population:
environmental selection copies the whole population front by front, the
reproduction loop never runs, and the random tape is not consulted. -/
theorem nsga2Generation_eq (eval : List ℚ → ℚ × ℚ) (populacao nAssets : ℕ)
    (popW : List (List ℚ)) (popObj : List (ℚ × ℚ)) (hist : List NsgaHistoryRow)
    (t : Rng.Tape) (gen : ℕ)
    (_hW : popW.length = populacao) (hO : popObj.length = populacao) :
    (nsga2Generation eval populacao nAssets (popW, popObj, hist, t) gen).1 =
      (fast_non_dominated_sort popObj).flatten.map (fun i => popW.getD i []) ∧
    (nsga2Generation eval populacao nAssets (popW, popObj, hist, t) gen).2.1 =
      (fast_non_dominated_sort popObj).flatten.map (fun i => popObj.getD i (0, 0)) ∧
    (nsga2Generation eval populacao nAssets (popW, popObj, hist, t) gen).2.2.2 = t := by
  obtain ⟨_, _, hperm⟩ := fnds_partition popObj
  have hflatlen : (fast_non_dominated_sort popObj).flatten.length = populacao := by
    rw [hperm.length_eq, List.length_range, hO]
  have hfill := nsga2Fill_copy_all popW popObj populacao
    (fast_non_dominated_sort popObj) [] [] (by simp [hflatlen])
  rw [List.nil_append, List.nil_append] at hfill
  have hfulllen : ((fast_non_dominated_sort popObj).flatten.map
      fun i => popW.getD i []).length = populacao := by
    rw [List.length_map, hflatlen]
  show ((nsga2Reproduce eval populacao nAssets populacao
      ((nsga2Fill popW popObj populacao (fast_non_dominated_sort popObj) ([], [])).1,
       (nsga2Fill popW popObj populacao (fast_non_dominated_sort popObj) ([], [])).2,
       t)).1 =
      (fast_non_dominated_sort popObj).flatten.map (fun i => popW.getD i [])) ∧
    ((nsga2Reproduce eval populacao nAssets populacao
      ((nsga2Fill popW popObj populacao (fast_non_dominated_sort popObj) ([], [])).1,
       (nsga2Fill popW popObj populacao (fast_non_dominated_sort popObj) ([], [])).2,
       t)).2.1 =
      (fast_non_dominated_sort popObj).flatten.map (fun i => popObj.getD i (0, 0))) ∧
    ((nsga2Reproduce eval populacao nAssets populacao
      ((nsga2Fill popW popObj populacao (fast_non_dominated_sort popObj) ([], [])).1,
       (nsga2Fill popW popObj populacao (fast_non_dominated_sort popObj) ([], [])).2,
       t)).2.2 = t)
  rw [hfill]
  rw [nsga2Reproduce_noop eval populacao nAssets populacao _ (by
    show ¬((fast_non_dominated_sort popObj).flatten.map
      fun i => popW.getD i []).length < populacao
    rw [hfulllen]
    omega)]
  exact ⟨rfl, rfl, rfl⟩

/-- Multiset invariance over any sequence of generations. -/
theorem nsga2_loop_perm (eval : List ℚ → ℚ × ℚ) (populacao nAssets : ℕ) :
    ∀ (gens : List ℕ) (popW : List (List ℚ)) (popObj : List (ℚ × ℚ))
      (hist : List NsgaHistoryRow) (t : Rng.Tape),
    popW.length = populacao → popObj.length = populacao →
    ((gens.foldl (nsga2Generation eval populacao nAssets)
        (popW, popObj, hist, t)).1).Perm popW ∧
    (gens.foldl (nsga2Generation eval populacao nAssets)
        (popW, popObj, hist, t)).1.length = populacao ∧
    (gens.foldl (nsga2Generation eval populacao nAssets)
        (popW, popObj, hist, t)).2.1.length = populacao ∧
    (gens.foldl (nsga2Generation eval populacao nAssets)
        (popW, popObj, hist, t)).2.2.2 = t := by
  intro gens
  induction gens with
  | nil =>
    intro popW popObj hist t hW hO
    exact ⟨List.Perm.refl popW, hW, hO, rfl⟩
  | cons g gens ih =>
    intro popW popObj hist t hW hO
    obtain ⟨h1, h2, h3⟩ := nsga2Generation_eq eval populacao nAssets popW popObj hist t g hW hO
    obtain ⟨_, _, hperm⟩ := fnds_partition popObj
    have hstepperm : (nsga2Generation eval populacao nAssets (popW, popObj, hist, t) g).1.Perm
        popW := by
      rw [h1]
      have := hperm.map fun i => popW.getD i []
      refine this.trans ?_
      rw [hO, ← hW]
      rw [map_getD_range popW []]
    have hlen1 : (nsga2Generation eval populacao nAssets (popW, popObj, hist, t) g).1.length =
        populacao := by
      rw [hstepperm.length_eq, hW]
    have hlen2 : (nsga2Generation eval populacao nAssets (popW, popObj, hist, t) g).2.1.length =
        populacao := by
      rw [h2, List.length_map, hperm.length_eq, List.length_range, hO]
    rw [List.foldl_cons]
    have hsplit : nsga2Generation eval populacao nAssets (popW, popObj, hist, t) g =
        ((nsga2Generation eval populacao nAssets (popW, popObj, hist, t) g).1,
         (nsga2Generation eval populacao nAssets (popW, popObj, hist, t) g).2.1,
         (nsga2Generation eval populacao nAssets (popW, popObj, hist, t) g).2.2.1,
         (nsga2Generation eval populacao nAssets (popW, popObj, hist, t) g).2.2.2) := rfl
    rw [hsplit, h3]
    obtain ⟨ih1, ih2, ih3, ih4⟩ := ih _ _ _ t hlen1 hlen2
    exact ⟨ih1.trans hstepperm, ih2, ih3, ih4⟩

/-- C2: the fronts of `fast_non_dominated_sort` partition the population;
with a full population the environmental selection of `run_nsga2` copies
every front whole (the crowding-distance truncation branch is never taken),
the reproduction loop never runs (the random tape is never consulted after
initialization), and the multiset of weight vectors is unchanged through
every generation. -/
theorem nsga2_selection_copies_population (pop : List (ℚ × ℚ))
    (eval : List ℚ → ℚ × ℚ) (populacao nAssets : ℕ)
    (popW : List (List ℚ)) (popObj : List (ℚ × ℚ)) (hist : List NsgaHistoryRow)
    (t : Rng.Tape) (gens : List ℕ)
    (hW : popW.length = populacao) (hO : popObj.length = populacao) :
    (fast_non_dominated_sort pop).flatten.Perm (List.range pop.length) ∧
    nsga2Fill popW popObj populacao (fast_non_dominated_sort popObj) ([], []) =
      ((fast_non_dominated_sort popObj).flatten.map fun i => popW.getD i [],
       (fast_non_dominated_sort popObj).flatten.map fun i => popObj.getD i (0, 0)) ∧
    ((gens.foldl (nsga2Generation eval populacao nAssets)
        (popW, popObj, hist, t)).1).Perm popW ∧
    (gens.foldl (nsga2Generation eval populacao nAssets)
        (popW, popObj, hist, t)).2.2.2 = t := by
  obtain ⟨_, _, hperm⟩ := fnds_partition pop
  obtain ⟨_, _, hpermO⟩ := fnds_partition popObj
  have hflatlen : (fast_non_dominated_sort popObj).flatten.length = populacao := by
    rw [hpermO.length_eq, List.length_range, hO]
  have hfill := nsga2Fill_copy_all popW popObj populacao
    (fast_non_dominated_sort popObj) [] [] (by simp [hflatlen])
  rw [List.nil_append, List.nil_append] at hfill
  obtain ⟨l1, _, _, l4⟩ := nsga2_loop_perm eval populacao nAssets gens popW popObj hist t hW hO
  exact ⟨hperm, hfill, l1, l4⟩

/-- Witness for C2 at a concrete two-individual population run for two
generations. -/
theorem nsga2_selection_copies_population_witness :
    (([[(1 : ℚ)], [0]] : List (List ℚ)).length = 2) ∧
    (([((0 : ℚ), (0 : ℚ)), (1, 1)] : List (ℚ × ℚ)).length = 2) ∧
    (fast_non_dominated_sort [((3 : ℚ), (2 : ℚ))]).flatten.Perm (List.range 1) ∧
    (([0, 1].foldl (nsga2Generation (fun _ => (0, 0)) 2 1)
        ([[(1 : ℚ)], [0]], [((0 : ℚ), (0 : ℚ)), (1, 1)], [],
          ⟨fun _ => 0, fun _ _ => 0, fun _ => 0, 0⟩)).1).Perm [[(1 : ℚ)], [0]] :=
  ⟨by decide, by decide,
    (nsga2_selection_copies_population [((3 : ℚ), (2 : ℚ))] (fun _ => (0, 0)) 2 1
      [[(1 : ℚ)], [0]] [((0 : ℚ), (0 : ℚ)), (1, 1)] []
      ⟨fun _ => 0, fun _ _ => 0, fun _ => 0, 0⟩ [0, 1] (by decide) (by decide)).1,
    (nsga2_selection_copies_population [((3 : ℚ), (2 : ℚ))] (fun _ => (0, 0)) 2 1
      [[(1 : ℚ)], [0]] [((0 : ℚ), (0 : ℚ)), (1, 1)] []
      ⟨fun _ => 0, fun _ _ => 0, fun _ => 0, 0⟩ [0, 1] (by decide) (by decide)).2.2.1⟩

/-- C8: with all randomness drawn from a tape that is a function of the
seed alone (as in the source, where every draw comes from
`np.random.default_rng(seed)` and the bootstrap re-seeds with the same
caller seed), two runs of `run_ga` or `run_nsga2` on identical inputs with
the same seed produce identical outputs, for every possible seed-to-tape
realization of the generator. -/
theorem runs_with_equal_seeds_coincide (mkTape : ℕ → Tape) (seed : ℕ)
    (matrix : List (List ℚ)) (tickers : List String) (populacao geracoes : ℕ)
    (evalGa : List ℚ → GA.Obj) (evalN : List ℚ → ℚ × ℚ) (pvar : List ℚ → ℚ) :
    GA.run_ga matrix tickers populacao geracoes evalGa (mkTape seed) =
      GA.run_ga matrix tickers populacao geracoes evalGa (mkTape seed) ∧
    run_nsga2 matrix tickers populacao geracoes evalN pvar (mkTape seed) =
      run_nsga2 matrix tickers populacao geracoes evalN pvar (mkTape seed) :=
  ⟨rfl, rfl⟩

end NSGA2
